import Mathlib

/-!
Verification of the DIAFold repository scripts against their specification.

Shallow embedding conventions:
  * Python `str` values are embedded as `List Char`.
  * Python exceptions (`raise ValueError`) are embedded as `Except String`.
  * Python float ratios are embedded as exact rationals (`ℚ`) and real-valued
    entropies as `ℝ`; `float("nan")` results are embedded as `none : Option ℝ`.
  * `for _ in range(n)` loops with `break` become fuel recursion on `n`;
    `while` loops become fuel recursion on an explicit decreasing measure.
-/

set_option maxHeartbeats 1000000

namespace Dia2a3m

/-- State of the decoder loop in `cigar_to_alignment_fold` (dia2a3m.py):
the accumulated aligned query, aligned subject, per-column insertion strings,
the run-length accumulator `index`, the subject and query cursors, and the
index `col` of the most recently emitted column (`-1` before any column). -/
structure FoldState where
  alignment_q : List Char
  alignment_s : List Char
  insertions : List (List Char)
  index : Nat
  s_curr : Nat
  q_curr : Nat
  col : Int
deriving DecidableEq

/-- Initial decoder state (dia2a3m.py lines 49–56). -/
def initState : FoldState := ⟨[], [], [], 0, 0, 0, -1⟩

/-- Value of `int(char)` for a digit character. -/
def digitVal (c : Char) : Nat := c.toNat - '0'.toNat

/-- The `M` branch of `cigar_to_alignment_fold` (dia2a3m.py lines 62–71):
repeat `index` times; stop early when either cursor is at the end of its
slice; otherwise emit one column consuming one query and one subject char. -/
def runM : Nat → List Char → List Char → FoldState → FoldState
  | 0, _, _, st => st
  | n + 1, seq, query, st =>
    if st.q_curr < query.length ∧ st.s_curr < seq.length then
      runM n seq query { st with
        alignment_q := st.alignment_q ++ [query.getD st.q_curr '?'],
        alignment_s := st.alignment_s ++ [seq.getD st.s_curr '?'],
        insertions := st.insertions ++ [[]],
        q_curr := st.q_curr + 1,
        s_curr := st.s_curr + 1,
        col := st.col + 1 }
    else st

/-- The `I` branch of `cigar_to_alignment_fold` (dia2a3m.py lines 73–81):
repeat `index` times; stop early at the end of the query slice; otherwise
emit one gap-subject column consuming one query char. -/
def runI : Nat → List Char → FoldState → FoldState
  | 0, _, st => st
  | n + 1, query, st =>
    if st.q_curr < query.length then
      runI n query { st with
        alignment_q := st.alignment_q ++ [query.getD st.q_curr '?'],
        alignment_s := st.alignment_s ++ ['-'],
        insertions := st.insertions ++ [[]],
        q_curr := st.q_curr + 1,
        col := st.col + 1 }
    else st

/-- One unit of the `D` branch (dia2a3m.py lines 87–89): if a column has been
emitted (`col >= 0`), append the lower-cased subject char to
`insertions[col]`; the subject cursor advances either way. -/
def dUnit (seq : List Char) (st : FoldState) : FoldState :=
  { st with
    insertions :=
      if 0 ≤ st.col then
        st.insertions.set st.col.toNat
          (st.insertions.getD st.col.toNat [] ++ [(seq.getD st.s_curr '?').toLower])
      else st.insertions,
    s_curr := st.s_curr + 1 }

/-- The `D` branch of `cigar_to_alignment_fold` (dia2a3m.py lines 83–89):
repeat `index` times; stop early at the end of the subject slice. -/
def runD : Nat → List Char → FoldState → FoldState
  | 0, _, st => st
  | n + 1, seq, st =>
    if st.s_curr < seq.length then runD n seq (dUnit seq st) else st

/-- Processing of one CIGAR character (dia2a3m.py lines 58–94): digits
accumulate into `index`; `M`/`I`/`D` run their branch and reset `index`;
anything else raises `ValueError`. -/
def procChar (seq query : List Char) (st : FoldState) (c : Char) :
    Except String FoldState :=
  if c.isDigit then
    .ok { st with index := st.index * 10 + digitVal c }
  else if c = 'M' then .ok { runM st.index seq query st with index := 0 }
  else if c = 'I' then .ok { runI st.index query st with index := 0 }
  else if c = 'D' then .ok { runD st.index seq st with index := 0 }
  else .error ("Invalid CIGAR character: " ++ String.singleton c)

/-- The main character loop of `cigar_to_alignment_fold`. -/
def procCigar (seq query : List Char) : List Char → FoldState → Except String FoldState
  | [], st => .ok st
  | c :: cs, st =>
    match procChar seq query st c with
    | .ok st' => procCigar seq query cs st'
    | .error e => .error e

/-- Body of the trailing `while q_curr < len(query)` loop (dia2a3m.py lines
96–101), run `n` times; the loop runs exactly `len(query) - q_curr` times
since `q_curr` increases by one per iteration. -/
def padGo : Nat → List Char → FoldState → FoldState
  | 0, _, st => st
  | n + 1, query, st =>
    padGo n query { st with
      alignment_q := st.alignment_q ++ [query.getD st.q_curr '?'],
      alignment_s := st.alignment_s ++ ['-'],
      insertions := st.insertions ++ [[]],
      q_curr := st.q_curr + 1,
      col := st.col + 1 }

/-- The trailing padding loop of `cigar_to_alignment_fold`. -/
def padQuery (query : List Char) (st : FoldState) : FoldState :=
  padGo (query.length - st.q_curr) query st

/-- Embeds `cigar_to_alignment_fold` from dia2a3m.py (lines 35–103): decode the
CIGAR string against the subject and query slices, then pad any unconsumed
query suffix with gap-aligned columns; returns
`(alignment_q, alignment_s, insertions)` or a `ValueError`. -/
def cigar_to_alignment_fold (cigar seq query : List Char) :
    Except String (List Char × List Char × List (List Char)) :=
  match procCigar seq query cigar initState with
  | .ok st =>
    let st' := padQuery query st
    .ok (st'.alignment_q, st'.alignment_s, st'.insertions)
  | .error e => .error e

/-- A CIGAR string made only of digits and the operators `M`, `I`, `D`
(the alphabet of valid run-length/operator pairs). -/
def ValidCigar (cigar : List Char) : Prop :=
  ∀ c ∈ cigar, c.isDigit ∨ c = 'M' ∨ c = 'I' ∨ c = 'D'

instance : DecidablePred ValidCigar := fun cigar =>
  inferInstanceAs (Decidable (∀ c ∈ cigar, _))

/-- Length/cursor invariant of the decoder loop: the three output lists each
hold one entry per consumed query character, and the query cursor never
passes the end of the query slice. -/
def Inv (query : List Char) (st : FoldState) : Prop :=
  st.alignment_q.length = st.q_curr ∧
  st.alignment_s.length = st.q_curr ∧
  st.insertions.length = st.q_curr ∧
  st.q_curr ≤ query.length

end Dia2a3m

namespace StarAlign

/-- State of the decoder loop in `cigar_to_alignment_fold`
(star_alighnment_DIAMOND.py lines 30–34). -/
structure StarState where
  alignment_s : List Char
  alignment_q : List Char
  index : Nat
  s_curr : Nat
  q_curr : Nat
deriving DecidableEq

/-- Initial decoder state of the star-alignment variant. -/
def initState : StarState := ⟨[], [], 0, 0, 0⟩

/-- Processing of one CIGAR character (star_alighnment_DIAMOND.py lines
35–56); Python slices `x[a:a+n]` become `(x.drop a).take n`, with the same
silent clamping semantics. -/
def procChar (seq query : List Char) (st : StarState) (c : Char) :
    Except String StarState :=
  if c.isDigit then
    .ok { st with index := st.index * 10 + Dia2a3m.digitVal c }
  else if c = 'M' then
    .ok { st with
      alignment_s := st.alignment_s ++ (seq.drop st.s_curr).take st.index,
      alignment_q := st.alignment_q ++ (query.drop st.q_curr).take st.index,
      s_curr := st.s_curr + st.index,
      q_curr := st.q_curr + st.index,
      index := 0 }
  else if c = 'D' then
    .ok { st with s_curr := st.s_curr + st.index, index := 0 }
  else if c = 'I' then
    .ok { st with
      alignment_q := st.alignment_q ++ (query.drop st.q_curr).take st.index,
      alignment_s := st.alignment_s ++ List.replicate st.index '-',
      q_curr := st.q_curr + st.index,
      index := 0 }
  else .error ("Invalid character in CIGAR string: " ++ String.singleton c)

/-- The main character loop of the star-alignment decoder. -/
def procCigar (seq query : List Char) : List Char → StarState →
    Except String StarState
  | [], st => .ok st
  | c :: cs, st =>
    match procChar seq query st c with
    | .ok st' => procCigar seq query cs st'
    | .error e => .error e

/-- Embeds `cigar_to_alignment_fold` from star_alighnment_DIAMOND.py (lines 29–62):
after the loop, append any unconsumed query suffix and right-pad the subject
with gaps to the aligned query length. -/
def cigar_to_alignment_fold (cigar seq query : List Char) :
    Except String (List Char × List Char) :=
  match procCigar seq query cigar initState with
  | .ok st =>
    let aq := if st.q_curr < query.length
      then st.alignment_q ++ query.drop st.q_curr
      else st.alignment_q
    let as := if st.alignment_s.length < aq.length
      then st.alignment_s ++
        List.replicate (aq.length - st.alignment_s.length) '-'
      else st.alignment_s
    .ok (aq, as)
  | .error e => .error e

end StarAlign

/-- The premise of C10: the CIGAR string consists only of valid M/I/D
run-length operations and, replayed sequentially from the given run counter
and cursors, no M, I or D run ever overruns the subject or the query slice. -/
def noOverrun (seq query : List Char) : List Char → Nat → Nat → Nat → Bool
  | [], _, _, _ => true
  | c :: cs, idx, s, q =>
    if c.isDigit then
      noOverrun seq query cs (idx * 10 + Dia2a3m.digitVal c) s q
    else if c = 'M' then
      decide (q + idx ≤ query.length) && decide (s + idx ≤ seq.length) &&
        noOverrun seq query cs 0 (s + idx) (q + idx)
    else if c = 'I' then
      decide (q + idx ≤ query.length) && noOverrun seq query cs 0 s (q + idx)
    else if c = 'D' then
      decide (s + idx ≤ seq.length) && noOverrun seq query cs 0 (s + idx) q
    else false

namespace A3MQuality

/-- Embeds `strip_a3m_insertions` from a3m_quality.py (lines 46–48): remove
lowercase letters (the A3M insertion characters). -/
def strip_a3m_insertions (seq : List Char) : List Char :=
  seq.filter (fun c => ! c.isLower)

end A3MQuality

namespace Dia2a3m

/-- One record of the hits file as consumed by `hits_to_a3m` (dia2a3m.py
lines 113–118): subject sequence, CIGAR string, 1-based query and subject
start offsets, and subject header. -/
structure Hit where
  seq : List Char
  cigar : List Char
  q_start : Nat
  s_start : Nat
  header : String
deriving DecidableEq

/-- The `pieces` loop of `hits_to_a3m` (dia2a3m.py lines 149–153): zip the
column-aligned characters with their insertion strings and interleave; the
zip stops at the shorter list. -/
def interleave : List Char → List (List Char) → List Char
  | [], _ => []
  | _ :: _, [] => []
  | ch :: chs, ins :: inss =>
    ch :: (if ins.isEmpty then [] else ins) ++ interleave chs inss

/-- The body of the hit loop of `hits_to_a3m` (dia2a3m.py lines 113–138):
slice query and subject at the 1-based start offsets, decode the CIGAR, then
left-pad with gaps and right-pad or truncate to the full query length. -/
def processHit (q_seq : List Char) (h : Hit) :
    Except String (List Char × List (List Char)) :=
  let q_start := h.q_start - 1
  let s_start := h.s_start - 1
  let q_prefix := q_seq.take q_start
  let q_aln := q_seq.drop q_start
  let s_prefix := List.replicate q_prefix.length '-'
  let s_sub := h.seq.drop s_start
  match cigar_to_alignment_fold h.cigar s_sub q_aln with
  | .error e => .error e
  | .ok (_, s_aln, insertions) =>
    let s_full := s_prefix ++ s_aln
    let ins_full := List.replicate q_prefix.length [] ++ insertions
    let s_full2 := if s_full.length < q_seq.length
      then s_full ++ List.replicate (q_seq.length - s_full.length) '-'
      else if s_full.length > q_seq.length then s_full.take q_seq.length
      else s_full
    let ins_full2 := if s_full.length < q_seq.length
      then ins_full ++ List.replicate (q_seq.length - ins_full.length) []
      else if s_full.length > q_seq.length then ins_full.take q_seq.length
      else ins_full
    .ok (s_full2, ins_full2)

/-- The hit loop of `hits_to_a3m`, accumulating `target_alignments`. -/
def processHits (q_seq : List Char) :
    List Hit → Except String (List (List Char × List (List Char) × String))
  | [] => .ok []
  | h :: rest =>
    match processHit q_seq h with
    | .error e => .error e
    | .ok (s_full, ins_full) =>
      match processHits q_seq rest with
      | .error e => .error e
      | .ok ts => .ok ((s_full, ins_full, h.header) :: ts)

/-- Embeds `hits_to_a3m` (dia2a3m.py lines 106–154), modelling the written A3M file
as its list of (header, sequence-line) records: first the query itself, then
one interleaved line per hit. -/
def hits_to_a3m (q_seq : List Char) (all_hits : List Hit) (outfname : String) :
    Except String (List (String × List Char)) :=
  match processHits q_seq all_hits with
  | .ok target_alignments =>
    .ok ((outfname, q_seq) ::
      target_alignments.map (fun t => (t.2.2, interleave t.1 t.2.1)))
  | .error e => .error e

/-- Provenance invariant: every aligned-subject char is a gap or a subject
char, and every insertion char is the lower-casing of a subject char. -/
def SubjChars (seq : List Char) (st : FoldState) : Prop :=
  (∀ c ∈ st.alignment_s, c = '-' ∨ c ∈ seq) ∧
  (∀ t ∈ st.insertions, ∀ c ∈ t, ∃ d ∈ seq, c = d.toLower)

/-- The `__main__` conversion loop of dia2a3m.py (lines 176–180): iterate the
per-query hit groups; a query missing from the FASTA map is skipped with a
warning; otherwise `hits_to_a3m` runs for it. The script contains no
try/except, so an exception raised inside `hits_to_a3m` propagates out of the
loop, which the embedding renders as the whole batch returning that error. -/
def convert_batch (queries_seq : List (String × List Char)) :
    List (String × List Hit) →
    Except String (List (String × List (String × List Char)))
  | [] => .ok []
  | (query, all_hits) :: rest =>
    match queries_seq.lookup query with
    | none => convert_batch queries_seq rest
    | some q_seq =>
      match hits_to_a3m q_seq all_hits query with
      | .error e => .error e
      | .ok rows =>
        match convert_batch queries_seq rest with
        | .error e => .error e
        | .ok out => .ok ((query, rows) :: out)

end Dia2a3m

namespace A3MQuality

/-- Embeds `GAP_CHARS` from a3m_quality.py (lines 18–20): `'-'` plus `'.'` since
`INCLUDE_DOT_AS_GAP` is `True`. -/
def GAP_CHARS : List Char := ['-', '.']

/-- The entropy accumulation of `col_entropy` (a3m_quality.py lines 82–89):
iterate the distinct residues (the `Counter` keys) with their
multiplicities, subtracting `p * log2 p` for each. -/
noncomputable def entropy_of (residues : List Char) : ℝ :=
  residues.dedup.foldl
    (fun ent c =>
      ent - ((residues.count c : ℝ) / (residues.length : ℝ)) *
        Real.logb 2 ((residues.count c : ℝ) / (residues.length : ℝ)))
    0

/-- Embeds `col_entropy` (a3m_quality.py lines 79–89); `none` models the
`float("nan")` returned for a column with no non-gap residues. -/
noncomputable def col_entropy (col : List Char) : Option ℝ :=
  let residues := col.filter (fun c => decide (c ∉ GAP_CHARS))
  if residues.isEmpty then none
  else some (entropy_of residues)

/-- Embeds `mean_entropy` (a3m_quality.py lines 91–101): mean of the per-column
entropies over the columns whose entropy is not NaN; `none` models the NaN
returned for an empty alignment or when every column is NaN. -/
noncomputable def mean_entropy (msa : List (List Char)) : Option ℝ :=
  match msa with
  | [] => none
  | q :: rest =>
    let ents := (List.range q.length).filterMap
      (fun i => col_entropy ((q :: rest).map (fun r => r.getD i ' ')))
    if ents.isEmpty then none
    else some (ents.sum / (ents.length : ℝ))

/-- Embeds `pairwise_identity_gapmasked` (a3m_quality.py lines 110–118): fraction of
matching positions among the zipped positions where neither character is a
gap (exact rational model of the float ratio), 0 when no position counts. -/
def pairwise_identity_gapmasked (a b : List Char) : ℚ :=
  let mc := (a.zip b).foldl
    (fun (p : Nat × Nat) xy =>
      if xy.1 ∈ GAP_CHARS ∨ xy.2 ∈ GAP_CHARS then p
      else (p.1 + (if xy.1 = xy.2 then 1 else 0), p.2 + 1))
    (0, 0)
  if mc.2 = 0 then 0 else (mc.1 : ℚ) / (mc.2 : ℚ)

/-- Embeds `greedy_nr_count` (a3m_quality.py lines 170–180): single-pass greedy
non-redundant set construction; a sequence is kept only if its gap-masked
identity to every already-kept sequence is below the threshold. -/
def greedy_nr_count (msa : List (List Char)) (thresh : ℚ) : Nat :=
  (msa.foldl
    (fun kept s =>
      if kept.any (fun k =>
        decide (pairwise_identity_gapmasked s k ≥ thresh))
      then kept else kept ++ [s])
    []).length

end A3MQuality

namespace Clean

/-- Embeds `COVERAGE_CUTOFF` (clean.py line 41), as an exact rational. -/
def COVERAGE_CUTOFF : ℚ := 8 / 10

/-- Embeds `MAX_INTERNAL_GAP` (clean.py line 42). -/
def MAX_INTERNAL_GAP : Nat := 15

/-- The observed polymer positions (clean.py lines 131–138): union over the
chain's residues of their `auth_map` entries, the dictionary being modelled
as a function to `Finset ℤ` with `∅` for absent keys (`observed.update` with
an absent key adds nothing). -/
def observed_ids {α : Type} (chain : List α) (authMap : α → Finset ℤ) :
    Finset ℤ :=
  chain.foldl (fun acc r => acc ∪ authMap r) ∅

/-- The `max_gap` loop of `compute_coverage_and_gap` (clean.py lines
151–157) over the sorted observed positions. -/
def gapFold : ℤ → List ℤ → Nat → Nat
  | _, [], g => g
  | prev, pos :: rest, g => gapFold pos rest (max g (pos - prev - 1).toNat)

/-- Embeds `compute_coverage_and_gap` (clean.py lines 116–159); `seq_ids` is the
sorted list of the declared polymer positions (`get_poly_seq_scheme` returns
`sorted(set(...))`), and the chain's residues are abstracted to their
`(auth_seq_num, icode)` keys. -/
def compute_coverage_and_gap {α : Type} (declared : Finset ℤ)
    (chain : List α) (authMap : α → Finset ℤ) : ℚ × Nat :=
  let seq_ids := declared.sort (· ≤ ·)
  if seq_ids = [] then (0, 0)
  else
    let observed := observed_ids chain authMap
    if observed = ∅ then (0, 0)
    else
      let coverage : ℚ := (observed.card : ℚ) / (seq_ids.length : ℚ)
      let obs_sorted := observed.sort (· ≤ ·)
      if obs_sorted.length < 2 then (coverage, 0)
      else (coverage, gapFold (obs_sorted.headD 0) obs_sorted.tail 0)

/-- A run of `n` consecutive integers starting at `a`, all strictly between
`lo` and `hi` and absent from `obs`. -/
def absentRun (obs : Finset ℤ) (lo hi a : ℤ) (n : Nat) : Prop :=
  ∀ k ∈ Finset.Ico a (a + (n : ℤ)), lo < k ∧ k < hi ∧ k ∉ obs

instance (obs : Finset ℤ) (lo hi a : ℤ) (n : Nat) :
    Decidable (absentRun obs lo hi a n) :=
  inferInstanceAs (Decidable (∀ k ∈ _, _))

/-- There is a run of `n` consecutive absent integers strictly between `lo`
and `hi`. -/
def specMaxGapP (obs : Finset ℤ) (lo hi : ℤ) (n : Nat) : Prop :=
  ∃ a ∈ Finset.Icc lo hi, absentRun obs lo hi a n

instance (obs : Finset ℤ) (lo hi : ℤ) (n : Nat) :
    Decidable (specMaxGapP obs lo hi n) :=
  inferInstanceAs (Decidable (∃ a ∈ _, _))

/-- The claim's characterization of the maximum internal gap: the largest
run of consecutive integers absent from `obs` strictly between `lo` and
`hi` (spec wording, to be compared with the code's fold). -/
def specMaxGap (obs : Finset ℤ) (lo hi : ℤ) : Nat :=
  Nat.findGreatest (specMaxGapP obs lo hi) (hi - lo).toNat

/-- Maximum over adjacent differences (minus one) of a list. -/
def maxAdj : List ℤ → Nat
  | [] => 0
  | [_] => 0
  | p :: q :: rest => max (q - p - 1).toNat (maxAdj (q :: rest))

/-- Positions `p` and `q` occur consecutively (in this order) in the list. -/
inductive AdjPair : List ℤ → ℤ → ℤ → Prop
  | head (p q : ℤ) (rest : List ℤ) : AdjPair (p :: q :: rest) p q
  | tail (x : ℤ) {l : List ℤ} {p q : ℤ} (h : AdjPair l p q) :
      AdjPair (x :: l) p q

/-- Outcome of `process_cif_file` for one entry: a REJECT log line for low
coverage or a big internal gap, or an ACCEPT with the cleaned (polymer-only)
chain written out. -/
inductive CifOutcome (α : Type) where
  | rejectLowCoverage (coverage : ℚ)
  | rejectBigGap (max_gap : Nat)
  | accept (cleaned : List α)

/-- The threshold checks of `process_cif_file` (clean.py lines 264–277)
followed by the accept path (lines 278–297): strict comparisons against the
fixed cutoffs, then the chain stripped to the residues present in the
polymer mapping (`clean_chain_using_polymer_mapping`, lines 190–203). -/
def apply_thresholds {α : Type} (coverage : ℚ) (max_gap : Nat)
    (cleaned : List α) : CifOutcome α :=
  if coverage < COVERAGE_CUTOFF then .rejectLowCoverage coverage
  else if max_gap > MAX_INTERNAL_GAP then .rejectBigGap max_gap
  else .accept cleaned

/-- Embeds `process_cif_file` (clean.py lines 208–307) on the main path: compute
coverage and max internal gap, apply the thresholds, and on acceptance keep
only the residues whose key appears in the polymer mapping (absent keys are
modelled as mapping to `∅`). -/
def process_cif_file {α : Type} (declared : Finset ℤ) (chain : List α)
    (authMap : α → Finset ℤ) : CifOutcome α :=
  apply_thresholds (compute_coverage_and_gap declared chain authMap).1
    (compute_coverage_and_gap declared chain authMap).2
    (chain.filter (fun r => decide (authMap r ≠ ∅)))

end Clean

namespace Dia2a3m

theorem runM_inv (n : Nat) (seq query : List Char) (st : FoldState)
    (h : Inv query st) : Inv query (runM n seq query st) := by
  induction n generalizing st with
  | zero => exact h
  | succ n ih =>
    rw [runM]
    split
    · rename_i hc
      obtain ⟨h1, h2, h3, _⟩ := h
      exact ih _ ⟨by simp [h1], by simp [h2], by simp [h3], hc.1⟩
    · exact h

theorem runI_inv (n : Nat) (query : List Char) (st : FoldState)
    (h : Inv query st) : Inv query (runI n query st) := by
  induction n generalizing st with
  | zero => exact h
  | succ n ih =>
    rw [runI]
    split
    · rename_i hc
      obtain ⟨h1, h2, h3, _⟩ := h
      exact ih _ ⟨by simp [h1], by simp [h2], by simp [h3], hc⟩
    · exact h

theorem dUnit_inv (seq query : List Char) (st : FoldState)
    (h : Inv query st) : Inv query (dUnit seq st) := by
  obtain ⟨h1, h2, h3, h4⟩ := h
  refine ⟨h1, h2, ?_, h4⟩
  simp only [dUnit]
  split <;> simp [h3]

theorem runD_inv (n : Nat) (seq query : List Char) (st : FoldState)
    (h : Inv query st) : Inv query (runD n seq st) := by
  induction n generalizing st with
  | zero => exact h
  | succ n ih =>
    rw [runD]
    split
    · exact ih _ (dUnit_inv seq query st h)
    · exact h

theorem inv_index (query : List Char) (st : FoldState) (n : Nat)
    (h : Inv query st) : Inv query { st with index := n } := h

theorem procChar_inv (seq query : List Char) (st st' : FoldState) (c : Char)
    (h : procChar seq query st c = .ok st') (hInv : Inv query st) :
    Inv query st' := by
  unfold procChar at h
  split at h
  · injection h with h; subst h; exact hInv
  · split at h
    · injection h with h; subst h
      exact inv_index _ _ _ (runM_inv _ _ _ _ hInv)
    · split at h
      · injection h with h; subst h
        exact inv_index _ _ _ (runI_inv _ _ _ hInv)
      · split at h
        · injection h with h; subst h
          exact inv_index _ _ _ (runD_inv _ _ _ _ hInv)
        · simp at h

theorem procCigar_inv (seq query cs : List Char) (st st' : FoldState)
    (h : procCigar seq query cs st = .ok st') (hInv : Inv query st) :
    Inv query st' := by
  induction cs generalizing st with
  | nil => rw [procCigar] at h; injection h with h; subst h; exact hInv
  | cons c cs ih =>
    rw [procCigar] at h
    cases hp : procChar seq query st c with
    | ok st1 =>
      rw [hp] at h
      exact ih st1 h (procChar_inv seq query st st1 c hp hInv)
    | error e => rw [hp] at h; simp at h

theorem procChar_ok (seq query : List Char) (st : FoldState) (c : Char)
    (hc : c.isDigit ∨ c = 'M' ∨ c = 'I' ∨ c = 'D') :
    ∃ st', procChar seq query st c = .ok st' := by
  unfold procChar
  rcases hc with h | h | h | h
  · exact ⟨_, by rw [if_pos h]⟩
  · subst h; exact ⟨_, by rw [if_neg (by decide), if_pos rfl]⟩
  · subst h
    exact ⟨_, by rw [if_neg (by decide), if_neg (by decide), if_pos rfl]⟩
  · subst h
    exact ⟨_, by rw [if_neg (by decide), if_neg (by decide), if_neg (by decide),
      if_pos rfl]⟩

theorem procCigar_ok (seq query cs : List Char) (st : FoldState)
    (hv : ∀ c ∈ cs, c.isDigit ∨ c = 'M' ∨ c = 'I' ∨ c = 'D') :
    ∃ st', procCigar seq query cs st = .ok st' := by
  induction cs generalizing st with
  | nil => exact ⟨st, rfl⟩
  | cons c cs ih =>
    obtain ⟨st1, h1⟩ := procChar_ok seq query st c (hv c (by simp))
    obtain ⟨st', h2⟩ := ih st1 (fun d hd => hv d (by simp [hd]))
    refine ⟨st', ?_⟩
    rw [procCigar, h1]
    exact h2

theorem padGo_exact (n : Nat) (query : List Char) (st : FoldState)
    (h : st.q_curr + n ≤ query.length) :
    padGo n query st =
      { st with
        alignment_q := st.alignment_q ++ (query.drop st.q_curr).take n,
        alignment_s := st.alignment_s ++ List.replicate n '-',
        insertions := st.insertions ++ List.replicate n [],
        q_curr := st.q_curr + n,
        col := st.col + n } := by
  induction n generalizing st with
  | zero => simp [padGo]
  | succ n ih =>
    have hq : st.q_curr < query.length := by omega
    rw [padGo, ih _ (by show st.q_curr + 1 + n ≤ query.length; omega)]
    rw [FoldState.mk.injEq]
    refine ⟨?_, ?_, ?_, rfl, rfl,
      by show st.q_curr + 1 + n = st.q_curr + (n + 1); omega,
      by show st.col + 1 + (n : Int) = st.col + ((n + 1 : Nat) : Int); omega⟩
    · rw [List.append_assoc, List.singleton_append,
        List.drop_eq_getElem_cons hq, List.take_succ_cons,
        List.getD_eq_getElem _ _ hq]
    · rw [List.append_assoc, List.singleton_append, ← List.replicate_succ]
    · rw [List.append_assoc, List.singleton_append, ← List.replicate_succ]

/-- Closed form of `padQuery`, for a state satisfying the invariant. -/
theorem padQuery_exact (query : List Char) (st : FoldState)
    (h : st.q_curr ≤ query.length) :
    padQuery query st =
      { st with
        alignment_q := st.alignment_q ++ query.drop st.q_curr,
        alignment_s := st.alignment_s ++
          List.replicate (query.length - st.q_curr) '-',
        insertions := st.insertions ++
          List.replicate (query.length - st.q_curr) [],
        q_curr := query.length,
        col := st.col + ((query.length - st.q_curr : Nat) : Int) } := by
  rw [padQuery, padGo_exact _ _ _ (by omega)]
  have : (query.drop st.q_curr).take (query.length - st.q_curr) =
      query.drop st.q_curr := by
    apply List.take_of_length_le
    simp
  rw [this, FoldState.mk.injEq]
  exact ⟨rfl, rfl, rfl, rfl, rfl, by omega, rfl⟩

/-- Setting the last position of a nonempty list replaces its last element. -/
theorem set_last_eq {α : Type} : ∀ (l : List α) (x : α), l ≠ [] →
    l.set (l.length - 1) x = l.dropLast ++ [x]
  | [], _, h => absurd rfl h
  | [_], _, _ => rfl
  | a :: b :: t, x, _ => by
    have ih := set_last_eq (b :: t) x (by simp)
    rw [show (a :: b :: t).length - 1 = t.length + 1 from rfl,
      List.set_cons_succ]
    rw [show t.length = (b :: t).length - 1 from rfl, ih,
      List.dropLast_cons₂]
    rfl

/-- Reading with `getD` at the last position of a nonempty list is its last element. -/
theorem getD_last_eq {α : Type} : ∀ (l : List α) (d : α), l ≠ [] →
    l.getD (l.length - 1) d = l.getLast?.getD d
  | [], _, h => absurd rfl h
  | [_], _, _ => rfl
  | a :: b :: t, d, _ => by
    have ih := getD_last_eq (b :: t) d (by simp)
    rw [show (a :: b :: t).length - 1 = t.length + 1 from rfl,
      List.getD_cons_succ]
    rw [show t.length = (b :: t).length - 1 from rfl, ih,
      List.getLast?_cons_cons]

/-- C1: for every CIGAR string made only of digits and the operators M, I, D,
and for every subject and query slice, `cigar_to_alignment_fold` succeeds and
returns a column-aligned subject string whose length (the column count,
excluding insertion strings) equals the length of the query slice; the query
characters left unconsumed when the CIGAR was exhausted are appended as
gap-aligned columns with empty insertions. -/
theorem decoder_column_count (cigar seq query : List Char)
    (h : ValidCigar cigar) :
    ∃ st, procCigar seq query cigar initState = .ok st ∧
      cigar_to_alignment_fold cigar seq query =
        .ok (st.alignment_q ++ query.drop st.q_curr,
             st.alignment_s ++ List.replicate (query.length - st.q_curr) '-',
             st.insertions ++ List.replicate (query.length - st.q_curr) []) ∧
      (st.alignment_s ++ List.replicate (query.length - st.q_curr) '-').length
        = query.length := by
  obtain ⟨st, hst⟩ := procCigar_ok seq query cigar initState h
  have hInv : Inv query st :=
    procCigar_inv seq query cigar initState st hst
      ⟨rfl, rfl, rfl, Nat.zero_le _⟩
  refine ⟨st, hst, ?_, ?_⟩
  · simp only [cigar_to_alignment_fold, hst]
    rw [padQuery_exact query st hInv.2.2.2]
  · obtain ⟨_, h2, _, h4⟩ := hInv
    simp [h2]
    omega

/-- C1 witness: a concrete run where the CIGAR ends before the query does. -/
theorem decoder_column_count_witness :
    ∃ st, procCigar "ABCDE".data "FGHIJ".data "3M1D".data initState = .ok st ∧
      cigar_to_alignment_fold "3M1D".data "ABCDE".data "FGHIJ".data =
        .ok (st.alignment_q ++ "FGHIJ".data.drop st.q_curr,
             st.alignment_s ++
               List.replicate ("FGHIJ".data.length - st.q_curr) '-',
             st.insertions ++
               List.replicate ("FGHIJ".data.length - st.q_curr) []) ∧
      (st.alignment_s ++
        List.replicate ("FGHIJ".data.length - st.q_curr) '-').length
        = "FGHIJ".data.length :=
  decoder_column_count "3M1D".data "ABCDE".data "FGHIJ".data (by decide)

/-- C3: one unit of a D run consumes one subject character without emitting a
new column and appends it, lower-cased, to the insertion string of the most
recently emitted column; with no column emitted yet the character is dropped
while the subject cursor still advances; and on CIGAR "3M2D2I" with subject
"ABCDE" and query "FGHIJ" the decoder yields column-aligned subject "ABC--"
with insertion string "de" at column index 2 and empty insertions elsewhere. -/
theorem d_run_appends_to_last_column (seq : List Char) (st : FoldState) :
    (st.col = (st.insertions.length : Int) - 1 → 0 ≤ st.col →
      (dUnit seq st).insertions =
        st.insertions.dropLast ++
          [(st.insertions.getLast?.getD []) ++
            [(seq.getD st.s_curr '?').toLower]] ∧
      (dUnit seq st).alignment_s = st.alignment_s ∧
      (dUnit seq st).alignment_q = st.alignment_q ∧
      (dUnit seq st).q_curr = st.q_curr ∧
      (dUnit seq st).s_curr = st.s_curr + 1) ∧
    (st.col < 0 →
      (dUnit seq st).insertions = st.insertions ∧
      (dUnit seq st).s_curr = st.s_curr + 1) ∧
    cigar_to_alignment_fold "3M2D2I".data "ABCDE".data "FGHIJ".data =
      .ok ("FGHIJ".data, "ABC--".data, [[], [], "de".data, [], []]) := by
  refine ⟨?_, ?_, by rfl⟩
  · intro hcol hpos
    have hne : st.insertions ≠ [] := by
      intro hnil
      rw [hnil] at hcol
      simp at hcol
      omega
    have hlen : st.col.toNat = st.insertions.length - 1 := by omega
    refine ⟨?_, rfl, rfl, rfl, rfl⟩
    simp only [dUnit, if_pos hpos, hlen]
    rw [set_last_eq _ _ hne, getD_last_eq _ _ hne]
  · intro hneg
    refine ⟨?_, rfl⟩
    simp only [dUnit]
    rw [if_neg (not_le.mpr hneg)]

/-- C3 witness: instantiating the two general D-unit properties at concrete
states (one with a column already emitted, one with none). -/
theorem d_run_appends_to_last_column_witness :
    (dUnit "ABCDE".data
        ⟨"F".data, "A".data, [[]], 0, 1, 1, 0⟩).insertions =
      [[]].dropLast ++
        [([[]].getLast?.getD []) ++
          [("ABCDE".data.getD 1 '?').toLower]] ∧
    (dUnit "ABCDE".data ⟨[], [], [], 0, 0, 0, -1⟩).insertions = [] ∧
    cigar_to_alignment_fold "3M2D2I".data "ABCDE".data "FGHIJ".data =
      .ok ("FGHIJ".data, "ABC--".data, [[], [], "de".data, [], []]) := by
  have h1 := (d_run_appends_to_last_column "ABCDE".data
    ⟨"F".data, "A".data, [[]], 0, 1, 1, 0⟩).1 (by decide) (by decide)
  have h2 := (d_run_appends_to_last_column "ABCDE".data
    ⟨[], [], [], 0, 0, 0, -1⟩).2.1 (by decide)
  exact ⟨h1.1, h2.1,
    (d_run_appends_to_last_column "ABCDE".data
      ⟨[], [], [], 0, 0, 0, -1⟩).2.2⟩

/-- C4: for every CIGAR string over digits and M/I/D and arbitrary (possibly
too short) subject and query slices, the decoder returns normally; whenever a
cursor reaches the end of its slice the current run stops immediately,
skipping the operator's remaining repeats, and a partial result is still
returned. -/
theorem decoder_total_on_short_slices (cigar seq query : List Char)
    (h : ValidCigar cigar) :
    (∃ r, cigar_to_alignment_fold cigar seq query = .ok r) ∧
    (∀ n st, query.length ≤ st.q_curr ∨ seq.length ≤ st.s_curr →
      runM n seq query st = st) ∧
    (∀ n st, query.length ≤ st.q_curr → runI n query st = st) ∧
    (∀ n st, seq.length ≤ st.s_curr → runD n seq st = st) := by
  refine ⟨?_, ?_, ?_, ?_⟩
  · obtain ⟨st, hst⟩ := procCigar_ok seq query cigar initState h
    refine ⟨((padQuery query st).alignment_q, (padQuery query st).alignment_s,
      (padQuery query st).insertions), ?_⟩
    simp only [cigar_to_alignment_fold, hst]
  · intro n st hstop
    cases n with
    | zero => rfl
    | succ n => rw [runM, if_neg (by omega)]
  · intro n st hstop
    cases n with
    | zero => rfl
    | succ n => rw [runI, if_neg (by omega)]
  · intro n st hstop
    cases n with
    | zero => rfl
    | succ n => rw [runD, if_neg (by omega)]

/-- Closed form of `runM` when neither slice runs out during the run. -/
theorem runM_exact (n : Nat) (seq query : List Char) (st : FoldState)
    (hq : st.q_curr + n ≤ query.length) (hs : st.s_curr + n ≤ seq.length) :
    runM n seq query st =
      { st with
        alignment_q := st.alignment_q ++ (query.drop st.q_curr).take n,
        alignment_s := st.alignment_s ++ (seq.drop st.s_curr).take n,
        insertions := st.insertions ++ List.replicate n [],
        q_curr := st.q_curr + n,
        s_curr := st.s_curr + n,
        col := st.col + (n : Int) } := by
  induction n generalizing st with
  | zero => simp [runM]
  | succ n ih =>
    have hq1 : st.q_curr < query.length := by omega
    have hs1 : st.s_curr < seq.length := by omega
    rw [runM, if_pos ⟨hq1, hs1⟩,
      ih _ (by show st.q_curr + 1 + n ≤ _; omega)
        (by show st.s_curr + 1 + n ≤ _; omega)]
    rw [FoldState.mk.injEq]
    refine ⟨?_, ?_, ?_, rfl,
      by show st.s_curr + 1 + n = st.s_curr + (n + 1); omega,
      by show st.q_curr + 1 + n = st.q_curr + (n + 1); omega,
      by show st.col + 1 + (n : Int) = st.col + ((n + 1 : Nat) : Int); omega⟩
    · rw [List.append_assoc, List.singleton_append,
        List.drop_eq_getElem_cons hq1, List.take_succ_cons,
        List.getD_eq_getElem _ _ hq1]
    · rw [List.append_assoc, List.singleton_append,
        List.drop_eq_getElem_cons hs1, List.take_succ_cons,
        List.getD_eq_getElem _ _ hs1]
    · rw [List.append_assoc, List.singleton_append, ← List.replicate_succ]

/-- Closed form of `runI` when the query slice does not run out. -/
theorem runI_exact (n : Nat) (query : List Char) (st : FoldState)
    (hq : st.q_curr + n ≤ query.length) :
    runI n query st =
      { st with
        alignment_q := st.alignment_q ++ (query.drop st.q_curr).take n,
        alignment_s := st.alignment_s ++ List.replicate n '-',
        insertions := st.insertions ++ List.replicate n [],
        q_curr := st.q_curr + n,
        col := st.col + (n : Int) } := by
  induction n generalizing st with
  | zero => simp [runI]
  | succ n ih =>
    have hq1 : st.q_curr < query.length := by omega
    rw [runI, if_pos hq1, ih _ (by show st.q_curr + 1 + n ≤ _; omega)]
    rw [FoldState.mk.injEq]
    refine ⟨?_, ?_, ?_, rfl, rfl,
      by show st.q_curr + 1 + n = st.q_curr + (n + 1); omega,
      by show st.col + 1 + (n : Int) = st.col + ((n + 1 : Nat) : Int); omega⟩
    · rw [List.append_assoc, List.singleton_append,
        List.drop_eq_getElem_cons hq1, List.take_succ_cons,
        List.getD_eq_getElem _ _ hq1]
    · rw [List.append_assoc, List.singleton_append, ← List.replicate_succ]
    · rw [List.append_assoc, List.singleton_append, ← List.replicate_succ]

/-- The fold `runD` never touches the aligned strings, the query cursor, the run
counter or the column counter. -/
theorem runD_preserves (n : Nat) (seq : List Char) (st : FoldState) :
    (runD n seq st).alignment_q = st.alignment_q ∧
    (runD n seq st).alignment_s = st.alignment_s ∧
    (runD n seq st).q_curr = st.q_curr ∧
    (runD n seq st).index = st.index ∧
    (runD n seq st).col = st.col := by
  induction n generalizing st with
  | zero => exact ⟨rfl, rfl, rfl, rfl, rfl⟩
  | succ n ih =>
    rw [runD]
    split
    · exact ih (dUnit seq st)
    · exact ⟨rfl, rfl, rfl, rfl, rfl⟩

/-- The fold `runD` advances the subject cursor by the full run length when the
subject slice does not run out. -/
theorem runD_s_curr (n : Nat) (seq : List Char) (st : FoldState)
    (hs : st.s_curr + n ≤ seq.length) :
    (runD n seq st).s_curr = st.s_curr + n := by
  induction n generalizing st with
  | zero => rfl
  | succ n ih =>
    have hs1 : st.s_curr < seq.length := by omega
    rw [runD, if_pos hs1,
      ih (dUnit seq st) (by show st.s_curr + 1 + n ≤ _; omega)]
    show st.s_curr + 1 + n = st.s_curr + (n + 1)
    omega

/-- C4 witness: a CIGAR demanding more than the slices provide still yields a
result, and each run function stops at a boundary state. -/
theorem decoder_total_on_short_slices_witness :
    (∃ r, cigar_to_alignment_fold "5M3I4D".data "AB".data "XYZ".data = .ok r) ∧
    runM 2 "AB".data "XYZ".data ⟨[], [], [], 0, 5, 7, -1⟩ =
      ⟨[], [], [], 0, 5, 7, -1⟩ ∧
    runI 2 "XYZ".data ⟨[], [], [], 0, 5, 7, -1⟩ = ⟨[], [], [], 0, 5, 7, -1⟩ ∧
    runD 2 "AB".data ⟨[], [], [], 0, 5, 7, -1⟩ = ⟨[], [], [], 0, 5, 7, -1⟩ := by
  have h := decoder_total_on_short_slices "5M3I4D".data "AB".data "XYZ".data
    (by decide)
  exact ⟨h.1, h.2.1 2 _ (by decide), h.2.2.1 2 _ (by decide),
    h.2.2.2 2 _ (by decide)⟩

end Dia2a3m

/-- Step-by-step simulation of the two decoder loops: under the no-overrun
premise both loops succeed and agree on the aligned strings, the run counter
and both cursors. -/
theorem star_dia_sim (seq query : List Char) :
    ∀ (cs : List Char) (d : Dia2a3m.FoldState) (s : StarAlign.StarState),
    d.alignment_q = s.alignment_q → d.alignment_s = s.alignment_s →
    d.index = s.index → d.s_curr = s.s_curr → d.q_curr = s.q_curr →
    noOverrun seq query cs d.index d.s_curr d.q_curr = true →
    ∃ d' s', Dia2a3m.procCigar seq query cs d = .ok d' ∧
      StarAlign.procCigar seq query cs s = .ok s' ∧
      d'.alignment_q = s'.alignment_q ∧ d'.alignment_s = s'.alignment_s ∧
      d'.s_curr = s'.s_curr ∧ d'.q_curr = s'.q_curr := by
  intro cs
  induction cs with
  | nil =>
    intro d s e1 e2 e3 e4 e5 hno
    exact ⟨d, s, rfl, rfl, e1, e2, e4, e5⟩
  | cons c cs ih =>
    intro d s e1 e2 e3 e4 e5 hno
    rw [noOverrun] at hno
    by_cases hdg : c.isDigit
    · rw [if_pos hdg] at hno
      have hpd : Dia2a3m.procChar seq query d c =
          .ok { d with index := d.index * 10 + Dia2a3m.digitVal c } := by
        rw [Dia2a3m.procChar, if_pos hdg]
      have hps : StarAlign.procChar seq query s c =
          .ok { s with index := s.index * 10 + Dia2a3m.digitVal c } := by
        rw [StarAlign.procChar, if_pos hdg]
      obtain ⟨d', s', h1, h2, r⟩ :=
        ih { d with index := d.index * 10 + Dia2a3m.digitVal c }
          { s with index := s.index * 10 + Dia2a3m.digitVal c }
          e1 e2 (by show d.index * 10 + _ = s.index * 10 + _; rw [e3]) e4 e5
          hno
      exact ⟨d', s', by rw [Dia2a3m.procCigar, hpd]; exact h1,
        by rw [StarAlign.procCigar, hps]; exact h2, r⟩
    · by_cases hM : c = 'M'
      · subst hM
        rw [if_neg hdg, if_pos rfl] at hno
        simp only [Bool.and_eq_true, decide_eq_true_eq] at hno
        obtain ⟨⟨hq, hs⟩, hno⟩ := hno
        have hrm := Dia2a3m.runM_exact d.index seq query d hq hs
        have hpd : Dia2a3m.procChar seq query d 'M' =
            .ok { Dia2a3m.runM d.index seq query d with index := 0 } := by
          rw [Dia2a3m.procChar, if_neg (by decide), if_pos rfl]
        have hps : StarAlign.procChar seq query s 'M' = .ok { s with
            alignment_s := s.alignment_s ++ (seq.drop s.s_curr).take s.index,
            alignment_q := s.alignment_q ++ (query.drop s.q_curr).take s.index,
            s_curr := s.s_curr + s.index,
            q_curr := s.q_curr + s.index,
            index := 0 } := by
          rw [StarAlign.procChar, if_neg (by decide), if_pos rfl]
        obtain ⟨d', s', h1, h2, r⟩ :=
          ih { Dia2a3m.runM d.index seq query d with index := 0 }
            { s with
              alignment_s := s.alignment_s ++ (seq.drop s.s_curr).take s.index,
              alignment_q := s.alignment_q ++ (query.drop s.q_curr).take s.index,
              s_curr := s.s_curr + s.index,
              q_curr := s.q_curr + s.index,
              index := 0 }
            (by rw [hrm]
                show d.alignment_q ++ _ = s.alignment_q ++ _
                rw [e1, e3, e5])
            (by rw [hrm]
                show d.alignment_s ++ _ = s.alignment_s ++ _
                rw [e2, e3, e4])
            (by rw [hrm])
            (by rw [hrm]
                show d.s_curr + d.index = s.s_curr + s.index
                rw [e3, e4])
            (by rw [hrm]
                show d.q_curr + d.index = s.q_curr + s.index
                rw [e3, e5])
            (by rw [hrm]; exact hno)
        exact ⟨d', s', by rw [Dia2a3m.procCigar, hpd]; exact h1,
          by rw [StarAlign.procCigar, hps]; exact h2, r⟩
      · by_cases hI : c = 'I'
        · subst hI
          rw [if_neg hdg, if_neg (by decide), if_pos rfl] at hno
          simp only [Bool.and_eq_true, decide_eq_true_eq] at hno
          obtain ⟨hq, hno⟩ := hno
          have hri := Dia2a3m.runI_exact d.index query d hq
          have hpd : Dia2a3m.procChar seq query d 'I' =
              .ok { Dia2a3m.runI d.index query d with index := 0 } := by
            rw [Dia2a3m.procChar, if_neg (by decide), if_neg (by decide),
              if_pos rfl]
          have hps : StarAlign.procChar seq query s 'I' = .ok { s with
              alignment_q :=
                s.alignment_q ++ (query.drop s.q_curr).take s.index,
              alignment_s := s.alignment_s ++ List.replicate s.index '-',
              q_curr := s.q_curr + s.index,
              index := 0 } := by
            rw [StarAlign.procChar, if_neg (by decide), if_neg (by decide),
              if_neg (by decide), if_pos rfl]
          obtain ⟨d', s', h1, h2, r⟩ :=
            ih { Dia2a3m.runI d.index query d with index := 0 }
              { s with
                alignment_q :=
                  s.alignment_q ++ (query.drop s.q_curr).take s.index,
                alignment_s := s.alignment_s ++ List.replicate s.index '-',
                q_curr := s.q_curr + s.index,
                index := 0 }
              (by rw [hri]
                  show d.alignment_q ++ _ = s.alignment_q ++ _
                  rw [e1, e3, e5])
              (by rw [hri]
                  show d.alignment_s ++ _ = s.alignment_s ++ _
                  rw [e2, e3])
              (by rw [hri])
              (by rw [hri]; exact e4)
              (by rw [hri]
                  show d.q_curr + d.index = s.q_curr + s.index
                  rw [e3, e5])
              (by rw [hri]; exact hno)
          exact ⟨d', s', by rw [Dia2a3m.procCigar, hpd]; exact h1,
            by rw [StarAlign.procCigar, hps]; exact h2, r⟩
        · by_cases hD : c = 'D'
          · subst hD
            rw [if_neg hdg, if_neg (by decide), if_neg (by decide),
              if_pos rfl] at hno
            simp only [Bool.and_eq_true, decide_eq_true_eq] at hno
            obtain ⟨hs, hno⟩ := hno
            obtain ⟨p1, p2, p3, p4, _⟩ :=
              Dia2a3m.runD_preserves d.index seq d
            have psc := Dia2a3m.runD_s_curr d.index seq d hs
            have hpd : Dia2a3m.procChar seq query d 'D' =
                .ok { Dia2a3m.runD d.index seq d with index := 0 } := by
              rw [Dia2a3m.procChar, if_neg (by decide), if_neg (by decide),
                if_neg (by decide), if_pos rfl]
            have hps : StarAlign.procChar seq query s 'D' =
                .ok { s with s_curr := s.s_curr + s.index, index := 0 } := by
              rw [StarAlign.procChar, if_neg (by decide), if_neg (by decide),
                if_pos rfl]
            obtain ⟨d', s', h1, h2, r⟩ :=
              ih { Dia2a3m.runD d.index seq d with index := 0 }
                { s with s_curr := s.s_curr + s.index, index := 0 }
                (by show (Dia2a3m.runD d.index seq d).alignment_q = _
                    rw [p1, e1])
                (by show (Dia2a3m.runD d.index seq d).alignment_s = _
                    rw [p2, e2])
                rfl
                (by show (Dia2a3m.runD d.index seq d).s_curr = _
                    rw [psc, e3, e4])
                (by show (Dia2a3m.runD d.index seq d).q_curr = _
                    rw [p3, e5])
                (by show noOverrun seq query cs 0
                      (Dia2a3m.runD d.index seq d).s_curr
                      (Dia2a3m.runD d.index seq d).q_curr = true
                    rw [psc, p3]; exact hno)
            exact ⟨d', s', by rw [Dia2a3m.procCigar, hpd]; exact h1,
              by rw [StarAlign.procCigar, hps]; exact h2, r⟩
          · rw [if_neg hdg, if_neg hM, if_neg hI, if_neg hD] at hno
            simp at hno

/-- C10: for every CIGAR string of valid M/I/D operations whose runs never
overrun the subject or the query slice, the two implementations of
`cigar_to_alignment_fold` (dia2a3m.py and star_alighnment_DIAMOND.py) produce
the same aligned query string and the same column-aligned subject string (the
star version merely drops the D-run insertion characters). -/
theorem star_and_dia_decoders_agree (cigar seq query : List Char)
    (h : noOverrun seq query cigar 0 0 0 = true) :
    ∃ aq as ins,
      Dia2a3m.cigar_to_alignment_fold cigar seq query = .ok (aq, as, ins) ∧
      StarAlign.cigar_to_alignment_fold cigar seq query = .ok (aq, as) := by
  obtain ⟨d', s', hd, hs, e1, e2, e4, e5⟩ :=
    star_dia_sim seq query cigar Dia2a3m.initState StarAlign.initState
      rfl rfl rfl rfl rfl h
  have hInv : Dia2a3m.Inv query d' :=
    Dia2a3m.procCigar_inv seq query cigar Dia2a3m.initState d' hd
      ⟨rfl, rfl, rfl, Nat.zero_le _⟩
  obtain ⟨i1, i2, i3, i4⟩ := hInv
  refine ⟨d'.alignment_q ++ query.drop d'.q_curr,
    d'.alignment_s ++ List.replicate (query.length - d'.q_curr) '-',
    d'.insertions ++ List.replicate (query.length - d'.q_curr) [],
    ?_, ?_⟩
  · simp only [Dia2a3m.cigar_to_alignment_fold, hd]
    rw [Dia2a3m.padQuery_exact query d' i4]
  · simp only [StarAlign.cigar_to_alignment_fold, hs]
    by_cases hlt : s'.q_curr < query.length
    · rw [if_pos hlt]
      have haq : s'.alignment_q ++ query.drop s'.q_curr =
          d'.alignment_q ++ query.drop d'.q_curr := by rw [e1, e5]
      rw [haq]
      have hlen : (d'.alignment_q ++ query.drop d'.q_curr).length =
          query.length := by
        simp [i1]
        omega
      rw [if_pos (by rw [hlen, ← e2, i2]; omega)]
      rw [hlen, ← e2, i2]
    · rw [if_neg hlt]
      have hq_eq : d'.q_curr = query.length := by omega
      rw [if_neg (by rw [← e2, i2, ← e1, i1]; omega)]
      rw [← e1, ← e2, hq_eq, List.drop_length]
      simp

/-- C10 witness: both decoders run on CIGAR "3M2D2I", subject "ABCDE", query
"FGHIJ", whose runs stay inside both slices. -/
theorem star_and_dia_decoders_agree_witness :
    ∃ aq as ins,
      Dia2a3m.cigar_to_alignment_fold "3M2D2I".data "ABCDE".data
        "FGHIJ".data = .ok (aq, as, ins) ∧
      StarAlign.cigar_to_alignment_fold "3M2D2I".data "ABCDE".data
        "FGHIJ".data = .ok (aq, as) :=
  star_and_dia_decoders_agree "3M2D2I".data "ABCDE".data "FGHIJ".data
    (by decide)

/-- A character in `ABCDEFGHIJKLMNOPQRSTUVWXYZ` is not lowercase. -/
theorem isLower_false_of_isUpper (c : Char) (h : c.isUpper = true) :
    c.isLower = false := by
  simp only [Char.isUpper, Bool.and_eq_true, decide_eq_true_eq] at h
  simp only [Char.isLower, Bool.and_eq_false_iff, decide_eq_false_iff_not]
  left
  intro hc
  have h1 : c.val.toNat ≤ (90 : UInt32).toNat := h.2
  have h2 : (97 : UInt32).toNat ≤ c.val.toNat := hc
  have e1 : (90 : UInt32).toNat = 90 := rfl
  have e2 : (97 : UInt32).toNat = 97 := rfl
  omega

/-- Lower-casing an uppercase basic-latin letter yields a lowercase one. -/
theorem isLower_toLower_of_isUpper (c : Char) (h : c.isUpper = true) :
    (c.toLower).isLower = true := by
  simp only [Char.isUpper, Bool.and_eq_true, decide_eq_true_eq] at h
  have h1 : c.val.toNat ≤ (90 : UInt32).toNat := h.2
  have h2 : (65 : UInt32).toNat ≤ c.val.toNat := h.1
  have e1 : (90 : UInt32).toNat = 90 := rfl
  have e2 : (65 : UInt32).toNat = 65 := rfl
  rw [e1] at h1
  rw [e2] at h2
  rw [Char.toLower]
  have hcond : c.toNat ≥ 65 ∧ c.toNat ≤ 90 := ⟨h2, h1⟩
  rw [if_pos hcond]
  have hvalid : (c.toNat + 32).isValidChar := Or.inl (by
    show c.val.toNat + 32 < 55296
    omega)
  rw [Char.ofNat, dif_pos hvalid]
  simp only [Char.isLower, Bool.and_eq_true, decide_eq_true_eq]
  constructor
  · show (97 : UInt32).toNat ≤ c.val.toNat + 32
    have e3 : (97 : UInt32).toNat = 97 := rfl
    omega
  · show c.val.toNat + 32 ≤ (122 : UInt32).toNat
    have e4 : (122 : UInt32).toNat = 122 := rfl
    omega

namespace Dia2a3m

theorem runM_subj (n : Nat) (seq query : List Char) (st : FoldState)
    (h : SubjChars seq st) : SubjChars seq (runM n seq query st) := by
  induction n generalizing st with
  | zero => exact h
  | succ n ih =>
    rw [runM]
    split
    · rename_i hc
      refine ih _ ⟨?_, ?_⟩
      · intro c hmem
        rcases List.mem_append.mp hmem with hmem | hmem
        · exact h.1 c hmem
        · right
          rw [List.mem_singleton] at hmem
          subst hmem
          rw [List.getD_eq_getElem _ _ hc.2]
          exact List.getElem_mem _
      · intro t hmem
        rcases List.mem_append.mp hmem with hmem | hmem
        · exact h.2 t hmem
        · rw [List.mem_singleton] at hmem
          subst hmem
          intro c hc2
          simp at hc2
    · exact h

theorem runI_subj (n : Nat) (query : List Char) (seq : List Char)
    (st : FoldState) (h : SubjChars seq st) :
    SubjChars seq (runI n query st) := by
  induction n generalizing st with
  | zero => exact h
  | succ n ih =>
    rw [runI]
    split
    · refine ih _ ⟨?_, ?_⟩
      · intro c hmem
        rcases List.mem_append.mp hmem with hmem | hmem
        · exact h.1 c hmem
        · rw [List.mem_singleton] at hmem
          exact Or.inl hmem
      · intro t hmem
        rcases List.mem_append.mp hmem with hmem | hmem
        · exact h.2 t hmem
        · rw [List.mem_singleton] at hmem
          subst hmem
          intro c hc2
          simp at hc2
    · exact h

theorem dUnit_subj (seq : List Char) (st : FoldState)
    (hsc : st.s_curr < seq.length) (h : SubjChars seq st) :
    SubjChars seq (dUnit seq st) := by
  refine ⟨h.1, ?_⟩
  intro t hmem
  simp only [dUnit] at hmem
  by_cases hcol : 0 ≤ st.col
  · rw [if_pos hcol] at hmem
    rcases List.mem_or_eq_of_mem_set hmem with hmem | hmem
    · exact h.2 t hmem
    · subst hmem
      intro c hc2
      rcases List.mem_append.mp hc2 with hc2 | hc2
      · by_cases hin : st.col.toNat < st.insertions.length
        · rw [List.getD_eq_getElem _ _ hin] at hc2
          exact h.2 _ (List.getElem_mem _) c hc2
        · rw [List.getD_eq_default _ _ (by omega)] at hc2
          simp at hc2
      · rw [List.mem_singleton] at hc2
        subst hc2
        refine ⟨seq.getD st.s_curr '?', ?_, rfl⟩
        rw [List.getD_eq_getElem _ _ hsc]
        exact List.getElem_mem _
  · rw [if_neg hcol] at hmem
    exact h.2 t hmem

theorem runD_subj (n : Nat) (seq : List Char) (st : FoldState)
    (h : SubjChars seq st) : SubjChars seq (runD n seq st) := by
  induction n generalizing st with
  | zero => exact h
  | succ n ih =>
    rw [runD]
    split
    · rename_i hsc
      exact ih _ (dUnit_subj seq st hsc h)
    · exact h

theorem procChar_subj (seq query : List Char) (st st' : FoldState) (c : Char)
    (h : procChar seq query st c = .ok st') (hs : SubjChars seq st) :
    SubjChars seq st' := by
  unfold procChar at h
  split at h
  · injection h with h; subst h; exact hs
  · split at h
    · injection h with h; subst h
      exact runM_subj _ _ _ _ hs
    · split at h
      · injection h with h; subst h
        exact runI_subj _ _ _ _ hs
      · split at h
        · injection h with h; subst h
          exact runD_subj _ _ _ hs
        · simp at h

theorem procCigar_subj (seq query cs : List Char) (st st' : FoldState)
    (h : procCigar seq query cs st = .ok st') (hs : SubjChars seq st) :
    SubjChars seq st' := by
  induction cs generalizing st with
  | nil => rw [procCigar] at h; injection h with h; subst h; exact hs
  | cons c cs ih =>
    rw [procCigar] at h
    cases hp : procChar seq query st c with
    | ok st1 =>
      rw [hp] at h
      exact ih st1 h (procChar_subj seq query st st1 c hp hs)
    | error e => rw [hp] at h; simp at h

/-- The step `processHit` always succeeds on a valid CIGAR; the padded/truncated
subject row and insertion list both have exactly the query's length, and
for uppercase subject sequences the row chars are never lowercase while the
insertion chars always are. -/
theorem processHit_spec (q_seq : List Char) (h : Hit)
    (hv : ValidCigar h.cigar) :
    ∃ sf insf, processHit q_seq h = .ok (sf, insf) ∧
      sf.length = q_seq.length ∧ insf.length = q_seq.length ∧
      ((∀ c ∈ h.seq, c.isUpper = true) →
        (∀ c ∈ sf, c.isLower = false) ∧
        (∀ t ∈ insf, ∀ c ∈ t, c.isLower = true)) := by
  obtain ⟨st, hst⟩ := procCigar_ok (h.seq.drop (h.s_start - 1))
    (q_seq.drop (h.q_start - 1)) h.cigar initState hv
  obtain ⟨i1, i2, i3, i4⟩ :=
    procCigar_inv _ _ _ _ _ hst ⟨rfl, rfl, rfl, Nat.zero_le _⟩
  have hS := procCigar_subj _ _ _ _ _ hst
    ⟨by intro c hc; simp [initState] at hc,
     by intro t ht; simp [initState] at ht⟩
  have hpe := padQuery_exact (q_seq.drop (h.q_start - 1)) st i4
  have hfold : cigar_to_alignment_fold h.cigar (h.seq.drop (h.s_start - 1))
      (q_seq.drop (h.q_start - 1)) =
      .ok (st.alignment_q ++ (q_seq.drop (h.q_start - 1)).drop st.q_curr,
        st.alignment_s ++
          List.replicate ((q_seq.drop (h.q_start - 1)).length - st.q_curr) '-',
        st.insertions ++
          List.replicate ((q_seq.drop (h.q_start - 1)).length - st.q_curr)
            []) := by
    simp only [cigar_to_alignment_fold, hst]
    rw [hpe]
  have hL1 : (st.alignment_s ++
      List.replicate ((q_seq.drop (h.q_start - 1)).length - st.q_curr)
        '-').length = (q_seq.drop (h.q_start - 1)).length := by
    simp only [List.length_append, List.length_replicate, i2]
    omega
  have hL2 : (st.insertions ++
      List.replicate ((q_seq.drop (h.q_start - 1)).length - st.q_curr)
        []).length = (q_seq.drop (h.q_start - 1)).length := by
    simp only [List.length_append, List.length_replicate, i3]
    omega
  have hsfl : (List.replicate (q_seq.take (h.q_start - 1)).length '-' ++
      (st.alignment_s ++
        List.replicate ((q_seq.drop (h.q_start - 1)).length - st.q_curr)
          '-')).length = q_seq.length := by
    rw [List.length_append, hL1, List.length_replicate]
    simp only [List.length_take, List.length_drop]
    omega
  have hinsl : (List.replicate (q_seq.take (h.q_start - 1)).length [] ++
      (st.insertions ++
        List.replicate ((q_seq.drop (h.q_start - 1)).length - st.q_curr)
          [])).length = q_seq.length := by
    rw [List.length_append, hL2, List.length_replicate]
    simp only [List.length_take, List.length_drop]
    omega
  refine ⟨_, _, ?_, hsfl, hinsl, ?_⟩
  · simp only [processHit, hfold]
    rw [if_neg (by rw [hsfl]; omega), if_neg (by rw [hsfl]; omega),
      if_neg (by rw [hsfl]; omega), if_neg (by rw [hsfl]; omega)]
  · intro hup
    constructor
    · intro c hc
      rcases List.mem_append.mp hc with hc | hc
      · rw [List.eq_of_mem_replicate hc]
        rfl
      · rcases List.mem_append.mp hc with hc | hc
        · rcases hS.1 c hc with hc2 | hc2
          · rw [hc2]; rfl
          · exact isLower_false_of_isUpper c
              (hup c (List.mem_of_mem_drop hc2))
        · rw [List.eq_of_mem_replicate hc]
          rfl
    · intro t ht
      rcases List.mem_append.mp ht with ht | ht
      · rw [List.eq_of_mem_replicate ht]
        intro c hc
        simp at hc
      · rcases List.mem_append.mp ht with ht | ht
        · intro c hc
          obtain ⟨d, hd, rfl⟩ := hS.2 t ht c hc
          exact isLower_toLower_of_isUpper d
            (hup d (List.mem_of_mem_drop hd))
        · rw [List.eq_of_mem_replicate ht]
          intro c hc
          simp at hc

/-- The hit loop succeeds on valid hits and yields one record per hit, all
with query-length rows, non-lowercase row chars and lowercase insertions. -/
theorem processHits_spec (q_seq : List Char) (hits : List Hit)
    (hv : ∀ h ∈ hits, ValidCigar h.cigar)
    (hu : ∀ h ∈ hits, ∀ c ∈ h.seq, c.isUpper = true) :
    ∃ ts, processHits q_seq hits = .ok ts ∧ ts.length = hits.length ∧
      ∀ t ∈ ts, t.1.length = q_seq.length ∧ t.2.1.length = q_seq.length ∧
        (∀ c ∈ t.1, c.isLower = false) ∧
        (∀ u ∈ t.2.1, ∀ c ∈ u, c.isLower = true) := by
  induction hits with
  | nil => exact ⟨[], rfl, rfl, by intro t ht; simp at ht⟩
  | cons h rest ih =>
    obtain ⟨sf, insf, h1, h2, h3, h4⟩ :=
      processHit_spec q_seq h (hv h (by simp))
    obtain ⟨ts, g1, g2, g3⟩ := ih (fun x hx => hv x (by simp [hx]))
      (fun x hx => hu x (by simp [hx]))
    refine ⟨(sf, insf, h.header) :: ts, ?_, by simp [g2], ?_⟩
    · rw [processHits, h1, g1]
    · intro t ht
      rcases List.mem_cons.mp ht with ht | ht
      · subst ht
        obtain ⟨p1, p2⟩ := h4 (hu h (by simp))
        exact ⟨h2, h3, p1, p2⟩
      · exact g3 t ht

/-- Stripping lowercase characters from a string with none is the identity. -/
theorem strip_keeps_all (s : List Char)
    (hs : ∀ c ∈ s, c.isLower = false) :
    A3MQuality.strip_a3m_insertions s = s := by
  apply List.filter_eq_self.mpr
  intro a ha
  rw [hs a ha]
  rfl

/-- Stripping the lowercase characters of an interleaved A3M line recovers
exactly the column-aligned characters. -/
theorem strip_interleave (s : List Char) (ins : List (List Char))
    (hs : ∀ c ∈ s, c.isLower = false)
    (hi : ∀ t ∈ ins, ∀ c ∈ t, c.isLower = true)
    (hl : s.length ≤ ins.length) :
    A3MQuality.strip_a3m_insertions (interleave s ins) = s := by
  induction s generalizing ins with
  | nil => cases ins <;> rfl
  | cons ch s ih =>
    cases ins with
    | nil => simp at hl
    | cons t ins2 =>
      have hch : (!ch.isLower) = true := by rw [hs ch (by simp)]; rfl
      have hins : List.filter (fun c => !c.isLower)
          (if t.isEmpty then [] else t) = [] := by
        split
        · rfl
        · apply List.filter_eq_nil_iff.mpr
          intro a ha
          rw [hi t (by simp) a ha]
          simp
      rw [interleave]
      show List.filter _ _ = _
      rw [List.cons_append, List.filter_cons, List.filter_append, hins,
        List.nil_append, if_pos hch]
      exact congrArg (ch :: ·) (ih ins2 (fun c hc => hs c (by simp [hc]))
        (fun u hu => hi u (by simp [hu])) (by simp at hl ⊢; omega))

/-- C5: for a query sequence with no lowercase characters and hits with
uppercase subject sequences and valid CIGARs, `hits_to_a3m` writes exactly
1 + n sequence rows (the query plus one per hit), and every row, after
removing the interleaved lowercase insertion characters, has length exactly
the full query length. -/
theorem hits_to_a3m_row_shape (q_seq : List Char) (all_hits : List Hit)
    (outfname : String)
    (hq : ∀ c ∈ q_seq, c.isLower = false)
    (hv : ∀ h ∈ all_hits, ValidCigar h.cigar)
    (hu : ∀ h ∈ all_hits, ∀ c ∈ h.seq, c.isUpper = true) :
    ∃ rows, hits_to_a3m q_seq all_hits outfname = .ok rows ∧
      rows.length = 1 + all_hits.length ∧
      ∀ r ∈ rows, (A3MQuality.strip_a3m_insertions r.2).length =
        q_seq.length := by
  obtain ⟨ts, g1, g2, g3⟩ := processHits_spec q_seq all_hits hv hu
  refine ⟨(outfname, q_seq) ::
    ts.map (fun t => (t.2.2, interleave t.1 t.2.1)), ?_,
    by simp [g2]; omega, ?_⟩
  · rw [hits_to_a3m, g1]
  · intro r hr
    rcases List.mem_cons.mp hr with hr | hr
    · subst hr
      show (A3MQuality.strip_a3m_insertions q_seq).length = q_seq.length
      rw [strip_keeps_all q_seq hq]
    · obtain ⟨t, ht, rfl⟩ := List.mem_map.mp hr
      obtain ⟨l1, l2, p1, p2⟩ := g3 t ht
      show (A3MQuality.strip_a3m_insertions (interleave t.1 t.2.1)).length = _
      rw [strip_interleave t.1 t.2.1 p1 p2 (by omega)]
      exact l1

/-- C5 witness: one query with one hit. -/
theorem hits_to_a3m_row_shape_witness :
    ∃ rows, hits_to_a3m "FGHIJ".data
        [⟨"ABCDE".data, "2M1D1M".data, 2, 1, "hit1"⟩] "q1" = .ok rows ∧
      rows.length =
        1 + ([⟨"ABCDE".data, "2M1D1M".data, 2, 1, "hit1"⟩] : List Hit).length ∧
      ∀ r ∈ rows, (A3MQuality.strip_a3m_insertions r.2).length =
        "FGHIJ".data.length :=
  hits_to_a3m_row_shape "FGHIJ".data
    [⟨"ABCDE".data, "2M1D1M".data, 2, 1, "hit1"⟩] "q1"
    (by decide) (by decide) (by decide)

/-- C2 counterexample: with two queries both present in the FASTA map, the
first having a hit with the malformed CIGAR "1X" and the second a fully
valid hit, the conversion batch aborts with the decode error instead of
continuing with the remaining record — there is no handler in the loop. -/
theorem malformed_cigar_aborts_batch_counterexample :
    convert_batch [("q1", "FG".data), ("q2", "FG".data)]
      [("q1", [⟨"AB".data, "1X".data, 1, 1, "h1"⟩]),
       ("q2", [⟨"AB".data, "2M".data, 1, 1, "h2"⟩])] =
      .error ("Invalid CIGAR character: " ++ String.singleton 'X') := by
  rfl

/-- C2 (amended): an operator character that is not a digit and not in
{M, I, D} makes `cigar_to_alignment_fold` raise a ValueError, and the
conversion loop has no handler: a query group present in the FASTA map whose
hits raise the error makes the whole batch abort with that error, so the
remaining records and queries are not processed. -/
theorem malformed_cigar_aborts_batch
    (queries_seq : List (String × List Char)) (query : String)
    (q_seq : List Char) (all_hits : List Hit)
    (rest : List (String × List Hit)) (e : String)
    (hfound : queries_seq.lookup query = some q_seq)
    (herr : hits_to_a3m q_seq all_hits query = .error e) :
    convert_batch queries_seq ((query, all_hits) :: rest) = .error e ∧
    ∀ (seq qry : List Char) (st : FoldState) (c : Char),
      c.isDigit = false → c ≠ 'M' → c ≠ 'I' → c ≠ 'D' →
      procChar seq qry st c =
        .error ("Invalid CIGAR character: " ++ String.singleton c) := by
  constructor
  · simp only [convert_batch, hfound, herr]
  · intro seq qry st c h1 h2 h3 h4
    rw [procChar, if_neg (by simp [h1]), if_neg h2, if_neg h3, if_neg h4]

/-- C2 witness: the amended theorem applied to the concrete two-query batch
and to the concrete invalid operator 'X'. -/
theorem malformed_cigar_aborts_batch_witness :
    convert_batch [("q1", "FG".data), ("q2", "FG".data)]
      (("q1", [⟨"AB".data, "1X".data, 1, 1, "h1"⟩]) ::
        [("q2", [⟨"AB".data, "2M".data, 1, 1, "h2"⟩])]) =
      .error ("Invalid CIGAR character: " ++ String.singleton 'X') ∧
    procChar [] [] initState 'X' =
      .error ("Invalid CIGAR character: " ++ String.singleton 'X') := by
  have h := malformed_cigar_aborts_batch
    [("q1", "FG".data), ("q2", "FG".data)] "q1" "FG".data
    [⟨"AB".data, "1X".data, 1, 1, "h1"⟩]
    [("q2", [⟨"AB".data, "2M".data, 1, 1, "h2"⟩])]
    ("Invalid CIGAR character: " ++ String.singleton 'X') (by rfl) (by rfl)
  exact ⟨h.1, h.2 [] [] initState 'X' (by decide) (by decide) (by decide)
    (by decide)⟩

end Dia2a3m

namespace A3MQuality

/-- The entropy of a constant multiset of residues is zero. -/
theorem entropy_of_replicate (n : Nat) (c : Char) (hn : n ≠ 0) :
    entropy_of (List.replicate n c) = 0 := by
  rw [entropy_of, List.replicate_dedup hn, List.foldl_cons, List.foldl_nil,
    List.count_replicate_self, List.length_replicate,
    div_self (by exact_mod_cast hn), Real.logb_one]
  ring

theorem entropy_of_const (l : List Char) (hne : l ≠ [])
    (hall : ∀ x ∈ l, ∀ y ∈ l, x = y) : entropy_of l = 0 := by
  obtain ⟨c, hc⟩ := List.exists_mem_of_ne_nil l hne
  have hrep : l = List.replicate l.length c :=
    List.eq_replicate_length.mpr (fun b hb => hall b hb c hc)
  have hlen : l.length ≠ 0 := by
    intro h0
    exact hne (List.eq_nil_of_length_eq_zero h0)
  rw [hrep]
  exact entropy_of_replicate l.length c hlen

/-- Applying `filterMap` with a function that acts as a guarded map is `map ∘ filter`. -/
theorem filterMap_eq_map_filter {α β : Type} (l : List α) (f : α → Option β)
    (p : α → Bool) (g : α → β)
    (h : ∀ a ∈ l, f a = if p a then some (g a) else none) :
    l.filterMap f = (l.filter p).map g := by
  induction l with
  | nil => rfl
  | cons a l ih =>
    rw [List.filterMap_cons, List.filter_cons, h a (by simp)]
    by_cases hp : p a = true
    · rw [if_pos hp, if_pos hp]
      show g a :: List.filterMap f l = g a :: (List.filter p l).map g
      rw [ih (fun b hb => h b (by simp [hb]))]
    · rw [if_neg hp, if_neg hp]
      show List.filterMap f l = (List.filter p l).map g
      exact ih (fun b hb => h b (by simp [hb]))

/-- C8: a column with at least one non-gap character, all of whose non-gap
characters are identical, has entropy exactly 0; `col_entropy` is NaN exactly
on all-gap columns; and `mean_entropy` is the mean over precisely the columns
that have at least one non-gap entry — all-gap columns are excluded from both
the numerator and the denominator. -/
theorem entropy_const_zero_and_allgap_excluded :
    (∀ col : List Char,
      col.filter (fun c => decide (c ∉ GAP_CHARS)) ≠ [] →
      (∀ x ∈ col.filter (fun c => decide (c ∉ GAP_CHARS)),
       ∀ y ∈ col.filter (fun c => decide (c ∉ GAP_CHARS)), x = y) →
      col_entropy col = some 0) ∧
    (∀ col : List Char,
      col_entropy col = none ↔ ∀ c ∈ col, c ∈ GAP_CHARS) ∧
    (∀ (q : List Char) (rest : List (List Char)),
      mean_entropy (q :: rest) =
        if ((List.range q.length).filter
            (fun i => !(((q :: rest).map (fun r => r.getD i ' ')).filter
              (fun c => decide (c ∉ GAP_CHARS))).isEmpty)).isEmpty
        then none
        else some
          ((((List.range q.length).filter
              (fun i => !(((q :: rest).map (fun r => r.getD i ' ')).filter
                (fun c => decide (c ∉ GAP_CHARS))).isEmpty)).map
            (fun i => entropy_of
              (((q :: rest).map (fun r => r.getD i ' ')).filter
                (fun c => decide (c ∉ GAP_CHARS))))).sum /
          ((((List.range q.length).filter
              (fun i => !(((q :: rest).map (fun r => r.getD i ' ')).filter
                (fun c => decide (c ∉ GAP_CHARS))).isEmpty)).length : ℝ)))) := by
  refine ⟨?_, ?_, ?_⟩
  · intro col hne hall
    simp only [col_entropy]
    rw [if_neg (by rw [List.isEmpty_iff]; exact hne)]
    exact congrArg some (entropy_of_const _ hne hall)
  · intro col
    have hiff : ((col.filter (fun c => decide (c ∉ GAP_CHARS))).isEmpty
        = true) ↔ ∀ c ∈ col, c ∈ GAP_CHARS := by
      rw [List.isEmpty_iff, List.filter_eq_nil_iff]
      simp
    simp only [col_entropy]
    split
    · rename_i hcond
      exact iff_of_true rfl (hiff.mp hcond)
    · rename_i hcond
      exact iff_of_false (by simp) (fun hx => hcond (hiff.mpr hx))
  · intro q rest
    have hfm := filterMap_eq_map_filter (List.range q.length)
      (fun i => col_entropy ((q :: rest).map (fun r => r.getD i ' ')))
      (fun i => !(((q :: rest).map (fun r => r.getD i ' ')).filter
        (fun c => decide (c ∉ GAP_CHARS))).isEmpty)
      (fun i => entropy_of (((q :: rest).map (fun r => r.getD i ' ')).filter
        (fun c => decide (c ∉ GAP_CHARS))))
      (by
        intro i _
        simp only [col_entropy]
        cases hp : (((q :: rest).map (fun r => r.getD i ' ')).filter
            (fun c => decide (c ∉ GAP_CHARS))).isEmpty with
        | true => rfl
        | false => rfl)
    simp only [mean_entropy, hfm]
    rw [List.length_map]
    cases hgood : ((List.range q.length).filter
        (fun i => !(((q :: rest).map (fun r => r.getD i ' ')).filter
          (fun c => decide (c ∉ GAP_CHARS))).isEmpty)) with
    | nil => rfl
    | cons a l => rfl

/-- C8 witness: a column with a gap and two identical residues has entropy
`some 0`. -/
theorem entropy_const_zero_witness :
    col_entropy ['A', '-', 'A'] = some 0 :=
  entropy_const_zero_and_allgap_excluded.1 ['A', '-', 'A']
    (by decide) (by decide)

theorem greedy_fold_all_kept (thresh : ℚ) (l : List (List Char)) :
    ∀ kept : List (List Char),
    (∀ s ∈ l, ∀ k ∈ kept, pairwise_identity_gapmasked s k < thresh) →
    l.Pairwise (fun a b => pairwise_identity_gapmasked b a < thresh) →
    l.foldl
      (fun kept s =>
        if kept.any (fun k =>
          decide (pairwise_identity_gapmasked s k ≥ thresh))
        then kept else kept ++ [s])
      kept = kept ++ l := by
  induction l with
  | nil => intro kept _ _; simp
  | cons s l ih =>
    intro kept hcross hpw
    rw [List.foldl_cons]
    have hany : (kept.any fun k =>
        decide (pairwise_identity_gapmasked s k ≥ thresh)) = false := by
      rw [List.any_eq_false]
      intro k hk
      simp only [decide_eq_true_eq]
      exact not_le.mpr (hcross s (by simp) k hk)
    rw [if_neg (by simp [hany]), ih (kept ++ [s]) ?_ (List.Pairwise.sublist
      (List.sublist_cons_self s l) hpw)]
    · simp
    · intro s2 hs2 k hk
      rcases List.mem_append.mp hk with hk | hk
      · exact hcross s2 (by simp [hs2]) k hk
      · rw [List.mem_singleton] at hk
        subst hk
        exact (List.pairwise_cons.mp hpw).1 s2 hs2

/-- C9: if every pair of sequences has gap-masked identity strictly below the
threshold (in both comparison orders), the greedy non-redundant pass keeps
every sequence and returns the full input count. -/
theorem greedy_nr_count_all_below (msa : List (List Char)) (thresh : ℚ)
    (h : msa.Pairwise (fun a b =>
      pairwise_identity_gapmasked a b < thresh ∧
      pairwise_identity_gapmasked b a < thresh)) :
    greedy_nr_count msa thresh = msa.length := by
  rw [greedy_nr_count, greedy_fold_all_kept thresh msa []
    (by intro s _ k hk; simp at hk)
    (h.imp (fun hab => hab.2))]
  simp

/-- C9 witness: two sequences whose gap-masked identity is 0 in both orders
(no gap-free common position), at threshold 62%. -/
theorem greedy_nr_count_all_below_witness :
    greedy_nr_count ["A-".data, "-A".data] (62 / 100) = 2 := by
  have h0 : pairwise_identity_gapmasked "A-".data "-A".data = 0 := rfl
  have h0' : pairwise_identity_gapmasked "-A".data "A-".data = 0 := rfl
  refine greedy_nr_count_all_below ["A-".data, "-A".data] (62 / 100) ?_
  refine List.Pairwise.cons ?_ (by simp)
  intro b hb
  rw [List.mem_singleton] at hb
  subst hb
  exact ⟨by rw [h0]; norm_num, by rw [h0']; norm_num⟩

end A3MQuality

namespace Clean

theorem gapFold_eq (rest : List ℤ) : ∀ (p : ℤ) (g : Nat),
    gapFold p rest g = max g (maxAdj (p :: rest)) := by
  induction rest with
  | nil => intro p g; simp [gapFold, maxAdj]
  | cons q rest ih =>
    intro p g
    rw [gapFold, ih]
    show max (max g (q - p - 1).toNat) (maxAdj (q :: rest)) =
      max g (max (q - p - 1).toNat (maxAdj (q :: rest)))
    exact max_assoc g _ _

theorem AdjPair.mem_left {l : List ℤ} {p q : ℤ} (h : AdjPair l p q) :
    p ∈ l := by
  induction h with
  | head p q rest => simp
  | tail x h ih => simp [ih]

theorem AdjPair.mem_right {l : List ℤ} {p q : ℤ} (h : AdjPair l p q) :
    q ∈ l := by
  induction h with
  | head p q rest => simp
  | tail x h ih => simp [ih]

theorem AdjPair.lt : ∀ {l : List ℤ} {p q : ℤ}, AdjPair l p q →
    List.Sorted (· < ·) l → p < q
  | _, p, q, .head _ _ _, hs => (List.sorted_cons.mp hs).1 q (by simp)
  | _, _, _, .tail _ h, hs => AdjPair.lt h (List.sorted_cons.mp hs).2

theorem AdjPair.not_between : ∀ {l : List ℤ} {p q : ℤ}, AdjPair l p q →
    List.Sorted (· < ·) l → ∀ x ∈ l, ¬(p < x ∧ x < q)
  | _, p, q, .head _ _ rest, hs, x, hx, ⟨hpx, hxq⟩ => by
    rcases List.mem_cons.mp hx with rfl | hx
    · exact lt_irrefl _ hpx
    rcases List.mem_cons.mp hx with rfl | hx
    · exact lt_irrefl _ hxq
    · have : q < x := (List.sorted_cons.mp (List.sorted_cons.mp hs).2).1 x hx
      omega
  | _, p, q, .tail y h, hs, x, hx, hb => by
    rcases List.mem_cons.mp hx with rfl | hx
    · have h1 : x < p := (List.sorted_cons.mp hs).1 p h.mem_left
      omega
    · exact AdjPair.not_between h (List.sorted_cons.mp hs).2 x hx hb

theorem maxAdj_le_cons (x : ℤ) (l : List ℤ) : maxAdj l ≤ maxAdj (x :: l) := by
  cases l with
  | nil => exact Nat.le_refl 0
  | cons a r => exact le_max_right _ _

theorem maxAdj_ge {l : List ℤ} {p q : ℤ} (h : AdjPair l p q) :
    (q - p - 1).toNat ≤ maxAdj l := by
  induction h with
  | head p q rest => exact le_max_left _ _
  | tail x h ih => exact le_trans ih (maxAdj_le_cons x _)

theorem maxAdj_achieved : ∀ l : List ℤ, maxAdj l = 0 ∨
    ∃ p q, AdjPair l p q ∧ (q - p - 1).toNat = maxAdj l
  | [] => Or.inl rfl
  | [_] => Or.inl rfl
  | p :: q :: rest => by
    have hm : maxAdj (p :: q :: rest) =
        max (q - p - 1).toNat (maxAdj (q :: rest)) := rfl
    rcases maxAdj_achieved (q :: rest) with h0 | ⟨a, b, hab, heq⟩
    · by_cases hd : (q - p - 1).toNat = 0
      · left
        rw [hm, h0]
        omega
      · right
        exact ⟨p, q, AdjPair.head p q rest, by rw [hm, h0]; omega⟩
    · by_cases hcmp : maxAdj (q :: rest) ≤ (q - p - 1).toNat
      · right
        exact ⟨p, q, AdjPair.head p q rest, by rw [hm]; omega⟩
      · right
        exact ⟨a, b, AdjPair.tail p hab, by rw [hm]; omega⟩

theorem adjPair_of_no_between : ∀ {l : List ℤ}, List.Sorted (· < ·) l →
    ∀ {p q : ℤ}, p ∈ l → q ∈ l → p < q →
    (∀ x ∈ l, ¬(p < x ∧ x < q)) → AdjPair l p q := by
  intro l
  induction l with
  | nil => intro _ p q hp; simp at hp
  | cons x l ih =>
    intro hs p q hp hq hpq hno
    rcases List.mem_cons.mp hp with rfl | hpl
    · cases l with
      | nil =>
        rcases List.mem_cons.mp hq with rfl | hq2
        · exact absurd hpq (lt_irrefl _)
        · simp at hq2
      | cons y l2 =>
        have hpy : p < y := (List.sorted_cons.mp hs).1 y (by simp)
        rcases List.mem_cons.mp hq with rfl | hq2
        · exact absurd hpq (lt_irrefl _)
        · rcases List.mem_cons.mp hq2 with rfl | hq3
          · exact AdjPair.head p q l2
          · have hyq : y < q :=
              (List.sorted_cons.mp (List.sorted_cons.mp hs).2).1 q hq3
            exact absurd ⟨hpy, hyq⟩ (hno y (by simp))
    · have hq2 : q ∈ l := by
        rcases List.mem_cons.mp hq with rfl | hql
        · have : q < p := (List.sorted_cons.mp hs).1 p hpl
          omega
        · exact hql
      exact AdjPair.tail x (ih (List.sorted_cons.mp hs).2 hpl hq2 hpq
        (fun z hz => hno z (by simp [hz])))

/-- The fold over adjacent sorted differences computes exactly the largest
run of consecutive absent integers strictly between the minimum and maximum
observed positions. -/
theorem maxAdj_sort_eq_specMaxGap (obs : Finset ℤ) (hne : obs.Nonempty) :
    maxAdj (obs.sort (· ≤ ·)) =
      specMaxGap obs (obs.min' hne) (obs.max' hne) := by
  have hs : List.Sorted (· < ·) (obs.sort (· ≤ ·)) :=
    Finset.sort_sorted_lt obs
  have hmem : ∀ x : ℤ, x ∈ obs.sort (· ≤ ·) ↔ x ∈ obs :=
    fun x => Finset.mem_sort _
  symm
  rw [specMaxGap, Nat.findGreatest_eq_iff]
  refine ⟨?_, ?_, ?_⟩
  · rcases maxAdj_achieved (obs.sort (· ≤ ·)) with h0 | ⟨p, q, hpq, heq⟩
    · rw [h0]
      exact Nat.zero_le _
    · rw [← heq]
      have h1 : obs.min' hne ≤ p :=
        Finset.min'_le obs p ((hmem p).mp hpq.mem_left)
      have h2 : q ≤ obs.max' hne :=
        Finset.le_max' obs q ((hmem q).mp hpq.mem_right)
      omega
  · intro hne0
    rcases maxAdj_achieved (obs.sort (· ≤ ·)) with h0 | ⟨p, q, hpq, heq⟩
    · exact absurd h0 hne0
    · have h1 : obs.min' hne ≤ p :=
        Finset.min'_le obs p ((hmem p).mp hpq.mem_left)
      have h2 : q ≤ obs.max' hne :=
        Finset.le_max' obs q ((hmem q).mp hpq.mem_right)
      have hgap : 1 ≤ q - p - 1 := by omega
      refine ⟨p + 1, ?_, ?_⟩
      · rw [Finset.mem_Icc]
        omega
      · intro k hk
        rw [Finset.mem_Ico] at hk
        have hk1 : p < k := by omega
        have hk2 : k < q := by omega
        refine ⟨by omega, by omega, ?_⟩
        intro hkobs
        exact hpq.not_between hs k ((hmem k).mpr hkobs) ⟨hk1, hk2⟩
  · intro n hlt hnb hP
    obtain ⟨a, ha, hrun⟩ := hP
    rw [Finset.mem_Icc] at ha
    have hn1 : 1 ≤ n := by omega
    have hafirst := hrun a (by rw [Finset.mem_Ico]; omega)
    obtain ⟨halo, hahi, _⟩ := hafirst
    have hlomem : obs.min' hne ∈ obs := Finset.min'_mem obs hne
    have himem : obs.max' hne ∈ obs := Finset.max'_mem obs hne
    have hS1ne : (obs.filter (fun x => x < a)).Nonempty :=
      ⟨obs.min' hne, by rw [Finset.mem_filter]; exact ⟨hlomem, by omega⟩⟩
    set p := (obs.filter (fun x => x < a)).max' hS1ne with hp_def
    have hpobs : p ∈ obs :=
      (Finset.mem_filter.mp (Finset.max'_mem _ hS1ne)).1
    have hpa : p < a :=
      (Finset.mem_filter.mp (Finset.max'_mem _ hS1ne)).2
    have hS2ne : (obs.filter (fun x => a ≤ x)).Nonempty :=
      ⟨obs.max' hne, by rw [Finset.mem_filter]; exact ⟨himem, by omega⟩⟩
    set q := (obs.filter (fun x => a ≤ x)).min' hS2ne with hq_def
    have hqobs : q ∈ obs :=
      (Finset.mem_filter.mp (Finset.min'_mem _ hS2ne)).1
    have haq : a ≤ q :=
      (Finset.mem_filter.mp (Finset.min'_mem _ hS2ne)).2
    have hq_ge : a + (n : ℤ) ≤ q := by
      by_contra hcon
      push_neg at hcon
      have hqrun := hrun q (by rw [Finset.mem_Ico]; exact ⟨haq, hcon⟩)
      exact hqrun.2.2 hqobs
    have hno : ∀ x ∈ obs.sort (· ≤ ·), ¬(p < x ∧ x < q) := by
      rintro x hx ⟨hx1, hx2⟩
      have hxobs := (hmem x).mp hx
      by_cases hxa : x < a
      · have : x ≤ p := Finset.le_max' _ x
          (by rw [Finset.mem_filter]; exact ⟨hxobs, hxa⟩)
        omega
      · push_neg at hxa
        have : q ≤ x := Finset.min'_le _ x
          (by rw [Finset.mem_filter]; exact ⟨hxobs, hxa⟩)
        omega
    have hadj : AdjPair (obs.sort (· ≤ ·)) p q :=
      adjPair_of_no_between hs ((hmem p).mpr hpobs) ((hmem q).mpr hqobs)
        (by omega) hno
    have hle := maxAdj_ge hadj
    omega

theorem headD_cons_tail {α : Type} (l : List α) (d : α) (h : l ≠ []) :
    l.headD d :: l.tail = l := by
  cases l with
  | nil => exact absurd rfl h
  | cons a r => rfl

/-- The function `compute_coverage_and_gap` computes exactly the claimed coverage ratio
and the claimed maximum internal gap. -/
theorem coverage_and_gap_general {α : Type} (declared : Finset ℤ)
    (chain : List α) (authMap : α → Finset ℤ)
    (hd : declared.Nonempty) (ho : (observed_ids chain authMap).Nonempty)
    (_hsub : observed_ids chain authMap ⊆ declared) :
    compute_coverage_and_gap declared chain authMap =
      (((observed_ids chain authMap).card : ℚ) / (declared.card : ℚ),
       specMaxGap (observed_ids chain authMap)
         ((observed_ids chain authMap).min' ho)
         ((observed_ids chain authMap).max' ho)) := by
  have hcard : (declared.sort (· ≤ ·)).length = declared.card :=
    Finset.length_sort _
  have hne1 : declared.sort (· ≤ ·) ≠ [] := by
    intro h0
    rw [h0] at hcard
    simp at hcard
    exact Finset.nonempty_iff_ne_empty.mp hd
      (Finset.card_eq_zero.mp hcard.symm)
  have hne2 : observed_ids chain authMap ≠ ∅ :=
    Finset.nonempty_iff_ne_empty.mp ho
  simp only [compute_coverage_and_gap]
  rw [if_neg hne1, if_neg hne2, hcard]
  by_cases hlen : ((observed_ids chain authMap).sort (· ≤ ·)).length < 2
  · rw [if_pos hlen, ← maxAdj_sort_eq_specMaxGap _ ho]
    have hlen1 : ((observed_ids chain authMap).sort (· ≤ ·)).length = 1 := by
      have hpos : 0 < ((observed_ids chain authMap).sort (· ≤ ·)).length := by
        rw [Finset.length_sort]
        exact Finset.card_pos.mpr ho
      omega
    cases hsort : (observed_ids chain authMap).sort (· ≤ ·) with
    | nil =>
      rw [hsort] at hlen1
      simp at hlen1
    | cons x rest =>
      have hrest : rest = [] := by
        rw [hsort] at hlen1
        simpa using hlen1
      subst hrest
      rfl
  · rw [if_neg hlen, ← maxAdj_sort_eq_specMaxGap _ ho, gapFold_eq]
    have hne3 : (observed_ids chain authMap).sort (· ≤ ·) ≠ [] := by
      intro h0
      rw [h0] at hlen
      simp at hlen
    rw [headD_cons_tail _ _ hne3, Nat.zero_max]

/-- C6: for a non-empty declared polymer position set and a non-empty
observed subset of it, `compute_coverage_and_gap` returns coverage
|observed| / |declared| and, as maximum internal gap, the largest run of
consecutive integers absent from the observed set strictly between its
minimum and maximum observed positions; in particular declared {1..10} and
observed {1,2,3,7,8,9,10} give coverage 0.7 and max internal gap 3. -/
theorem coverage_and_gap_formula :
    (∀ {α : Type} (declared : Finset ℤ) (chain : List α)
      (authMap : α → Finset ℤ) (hd : declared.Nonempty)
      (ho : (observed_ids chain authMap).Nonempty),
      observed_ids chain authMap ⊆ declared →
      compute_coverage_and_gap declared chain authMap =
        (((observed_ids chain authMap).card : ℚ) / (declared.card : ℚ),
         specMaxGap (observed_ids chain authMap)
           ((observed_ids chain authMap).min' ho)
           ((observed_ids chain authMap).max' ho))) ∧
    compute_coverage_and_gap (Finset.Icc (1 : ℤ) 10) [(0 : ℤ)]
      (fun _ => ({1, 2, 3, 7, 8, 9, 10} : Finset ℤ)) = (7 / 10, 3) := by
  have main : ∀ {α : Type} (declared : Finset ℤ) (chain : List α)
      (authMap : α → Finset ℤ) (hd : declared.Nonempty)
      (ho : (observed_ids chain authMap).Nonempty),
      observed_ids chain authMap ⊆ declared →
      compute_coverage_and_gap declared chain authMap =
        (((observed_ids chain authMap).card : ℚ) / (declared.card : ℚ),
         specMaxGap (observed_ids chain authMap)
           ((observed_ids chain authMap).min' ho)
           ((observed_ids chain authMap).max' ho)) :=
    fun declared chain authMap hd ho hsub =>
      coverage_and_gap_general declared chain authMap hd ho hsub
  refine ⟨main, ?_⟩
  have ho : (observed_ids [(0 : ℤ)]
      (fun _ => ({1, 2, 3, 7, 8, 9, 10} : Finset ℤ))).Nonempty := by decide
  rw [main (Finset.Icc (1 : ℤ) 10) [(0 : ℤ)]
    (fun _ => ({1, 2, 3, 7, 8, 9, 10} : Finset ℤ)) (by decide) ho (by decide)]
  have h1 : (observed_ids [(0 : ℤ)]
      (fun _ => ({1, 2, 3, 7, 8, 9, 10} : Finset ℤ))).card = 7 := by decide
  have h2 : (Finset.Icc (1 : ℤ) 10).card = 10 := by decide
  have h3 : specMaxGap
      (observed_ids [(0 : ℤ)] (fun _ => ({1, 2, 3, 7, 8, 9, 10} : Finset ℤ)))
      ((observed_ids [(0 : ℤ)]
        (fun _ => ({1, 2, 3, 7, 8, 9, 10} : Finset ℤ))).min' (by decide))
      ((observed_ids [(0 : ℤ)]
        (fun _ => ({1, 2, 3, 7, 8, 9, 10} : Finset ℤ))).max' (by decide))
      = 3 := by
    decide
  rw [h1, h2, h3]
  norm_num

/-- C6 witness: the general coverage/gap formula applied at the concrete
declared set {1..10} with observed set {1,2,3,7,8,9,10}. -/
theorem coverage_and_gap_formula_witness :
    compute_coverage_and_gap (Finset.Icc (1 : ℤ) 10) [(0 : ℤ)]
        (fun _ => ({1, 2, 3, 7, 8, 9, 10} : Finset ℤ)) =
      (((observed_ids [(0 : ℤ)]
            (fun _ => ({1, 2, 3, 7, 8, 9, 10} : Finset ℤ))).card : ℚ) /
          ((Finset.Icc (1 : ℤ) 10).card : ℚ),
        specMaxGap
          (observed_ids [(0 : ℤ)]
            (fun _ => ({1, 2, 3, 7, 8, 9, 10} : Finset ℤ)))
          ((observed_ids [(0 : ℤ)]
            (fun _ => ({1, 2, 3, 7, 8, 9, 10} : Finset ℤ))).min' (by decide))
          ((observed_ids [(0 : ℤ)]
            (fun _ => ({1, 2, 3, 7, 8, 9, 10} : Finset ℤ))).max'
              (by decide))) :=
  coverage_and_gap_formula.1 (Finset.Icc (1 : ℤ) 10) [(0 : ℤ)]
    (fun _ => ({1, 2, 3, 7, 8, 9, 10} : Finset ℤ)) (by decide) (by decide)
    (by decide)

/-- C7: `process_cif_file` rejects exactly when the computed coverage is
strictly below 0.8 or the computed max internal gap is strictly above 15;
an entry with coverage exactly 0.8 and max gap exactly 15 passes both
strict comparisons and is accepted with its chain stripped to the residues
of the polymer mapping. -/
theorem process_rejects_iff_thresholds {α : Type} :
    (∀ (declared : Finset ℤ) (chain : List α) (authMap : α → Finset ℤ),
      process_cif_file declared chain authMap =
        apply_thresholds (compute_coverage_and_gap declared chain authMap).1
          (compute_coverage_and_gap declared chain authMap).2
          (chain.filter (fun r => decide (authMap r ≠ ∅)))) ∧
    (∀ (coverage : ℚ) (max_gap : Nat) (cleaned : List α),
      (∃ cl, apply_thresholds coverage max_gap cleaned =
        CifOutcome.accept cl) ↔
        ¬(coverage < COVERAGE_CUTOFF ∨ max_gap > MAX_INTERNAL_GAP)) ∧
    (∀ cleaned : List α,
      apply_thresholds (8 / 10) 15 cleaned = CifOutcome.accept cleaned) := by
  refine ⟨fun _ _ _ => rfl, ?_, ?_⟩
  · intro coverage max_gap cleaned
    unfold apply_thresholds
    by_cases h1 : coverage < COVERAGE_CUTOFF
    · rw [if_pos h1]
      apply iff_of_false
      · rintro ⟨cl, hc⟩
        exact CifOutcome.noConfusion hc
      · intro hn
        exact hn (Or.inl h1)
    · rw [if_neg h1]
      by_cases h2 : max_gap > MAX_INTERNAL_GAP
      · rw [if_pos h2]
        apply iff_of_false
        · rintro ⟨cl, hc⟩
          exact CifOutcome.noConfusion hc
        · intro hn
          exact hn (Or.inr h2)
      · rw [if_neg h2]
        apply iff_of_true
        · exact ⟨cleaned, rfl⟩
        · rintro (hc | hc)
          · exact h1 hc
          · exact h2 hc
  · intro cleaned
    unfold apply_thresholds
    rw [if_neg (by unfold COVERAGE_CUTOFF; exact lt_irrefl _),
      if_neg (by unfold MAX_INTERNAL_GAP; omega)]

end Clean
